import Mathlib

/-!
Verification development for the pytato call-concatenation, call-inlining and
loopy code-generation subsystems.  The Lean definitions below are shallow
embeddings of the Python functions in

  * pytato/transform/calls.py
  * pytato/codegen.py
  * pytato/target/loopy/codegen.py
  * pytato/array.py

Machine integers do not occur (Python integers are unbounded), shape
components are modelled as natural numbers, dtypes and opaque payloads as
natural-number codes.
-/

set_option maxHeartbeats 1000000

namespace Pytato

/- ====================================================================
   Part 1: output slicing (`_OutputSlicer`, calls.py lines 1372-1405) and
   its use in `_get_replacement_map_post_concatenating`
   (calls.py lines 2021-2044).
   ==================================================================== -/

/-- One entry of the start/end index lists built by `_OutputSlicer.__call__`:
given the running end index of the previous slice, each slice size `s`
contributes the pair `(prev_end, prev_end + s)` (`start_indices.append(end_indices[-1])`,
`end_indices.append(end_indices[-1] + slice_sizes[islice])`); the first
slice gets `(0, slice_sizes[0])`. -/
def outputSliceBoundsAux (prevEnd : Nat) : List Nat → List (Nat × Nat)
  | [] => []
  | s :: rest => (prevEnd, prevEnd + s) :: outputSliceBoundsAux (prevEnd + s) rest

/-- The list `zip start_indices end_indices` computed by
`_OutputSlicer.__call__` from `slice_sizes` (calls.py lines 1394-1405). -/
def outputSliceBounds (sliceSizes : List Nat) : List (Nat × Nat) :=
  outputSliceBoundsAux 0 sliceSizes

/-- The flattened content along the concatenation axis of one array:
for the index-level semantics of slicing we represent an array, restricted
to the concatenation axis, as the list of its (opaque) per-index entries. -/
def axisContent (α : Type) := List α

/-- `ary[start:end]` along the axis, at the index level: the entries with
positions in the half-open interval `[start, end)`.  This is the semantics of
the `slice(start_idx, end_idx)` placed at position `axis` by
`_OutputSlicer._get_slice` (calls.py lines 1377-1392). -/
def sliceAxis {α : Type} (ary : List α) (start stop : Nat) : List α :=
  (ary.take stop).drop start

/-- `_get_replacement_map_post_concatenating` (calls.py lines 2034-2040):
`slice_sizes = [cs[output_name].shape[concat.axis] for cs in call_sites]`;
the i-th call site's `NamedCallResult` is replaced by the i-th slice of the
new concatenated return. Here we record, per call site, the slice bounds it
receives. -/
def replacementSliceBounds (siteAxisLens : List Nat) : List (Nat × Nat) :=
  outputSliceBounds siteAxisLens

/- ====================================================================
   Part 2: `_verify_arrays_can_be_concated_along_axis`
   (calls.py lines 1114-1131), `_have_same_axis_length` (546-555),
   `_have_same_axis_length_except` (558-569),
   `_get_concatenated_shape` (1139-1150), `_verify_arrays_same` (1134-1136).
   ==================================================================== -/

/-- An array as far as the concatenation validity checks inspect it:
its shape (shape components as natural numbers, compared by
`are_shape_components_equal`), its dtype and — for input arguments — its
name (both modelled as opaque codes). -/
structure ConcArray where
  shape : List Nat
  dtype : Nat
  name : String
  deriving DecidableEq, Repr

/-- `ary.shape[iaxis]`.  The Python code only evaluates this in range; out of
range we return 0. -/
def ConcArray.shapeAt (a : ConcArray) (iaxis : Nat) : Nat :=
  a.shape.getD iaxis 0

/-- `ary.ndim = len(ary.shape)`. -/
def ConcArray.ndim (a : ConcArray) : Nat := a.shape.length

/-- `_have_same_axis_length(arrays, iaxis)` (calls.py lines 546-555): every
array in `arrays` has the same axis length along `iaxis` as the first one. -/
def haveSameAxisLength (arrays : List ConcArray) (iaxis : Nat) : Bool :=
  match arrays with
  | [] => true
  | a :: _ => arrays.all fun other => other.shapeAt iaxis == a.shapeAt iaxis

/-- `_have_same_axis_length_except(arrays, iaxis)` (calls.py lines 558-569):
all arrays have the dimensionality of the first one, and the same axis
lengths on every axis `idim ≠ iaxis` with `idim < ndim`. -/
def haveSameAxisLengthExcept (arrays : List ConcArray) (iaxis : Nat) : Bool :=
  match arrays with
  | [] => true
  | a :: _ =>
      (arrays.all fun ary => ary.ndim == a.ndim)
      && ((List.range a.ndim).all fun idim =>
            idim == iaxis || haveSameAxisLength arrays idim)

/-- The fields that `_verify_arrays_can_be_concated_along_axis` may be asked
to compare across call sites: `"dtype"` always, `"name"` in addition for
input arguments (calls.py lines 1206-1209 vs. 1239-1242). -/
inductive ConcField where
  | dtypeField
  | nameField
  deriving DecidableEq, Repr

/-- `getattr(ary, field)`, injected into a common codomain. -/
def getField (a : ConcArray) : ConcField → Nat ⊕ String
  | .dtypeField => Sum.inl a.dtype
  | .nameField => Sum.inr a.name

/-- `len({getattr(ary, field) for ary in arrays}) == 1` for nonempty
`arrays`: all arrays agree with the first on the field. -/
def fieldIsSingleValued (arrays : List ConcArray) (f : ConcField) : Bool :=
  match arrays with
  | [] => false
  | a :: _ => arrays.all fun other => decide (getField other f = getField a f)

/-- `_verify_arrays_can_be_concated_along_axis(arrays, fields, iaxis)`
(calls.py lines 1114-1131): raise `_InvalidConcatenatability` when the axis
lengths are incompatible, then when any required field varies across the
arrays; otherwise return normally. -/
def verifyArraysCanBeConcatedAlongAxis (arrays : List ConcArray)
    (fieldsThatMustBeSame : List ConcField) (iaxis : Nat) :
    Except String Unit :=
  if ¬ haveSameAxisLengthExcept arrays iaxis then
    .error "Axis lengths are incompatible."
  else
    match fieldsThatMustBeSame.find? (fun f => ¬ fieldIsSingleValued arrays f) with
    | some _ => .error "Field varies across calls."
    | none => .ok ()

/-- `_verify_arrays_same(arrays)` (calls.py lines 1134-1136):
`len(set(arrays)) == 1`. -/
def verifyArraysSame (arrays : List ConcArray) : Except String Unit :=
  match arrays with
  | [] => .error "Arrays are not the same."
  | a :: _ =>
      if arrays.all fun other => other == a then .ok ()
      else .error "Arrays are not the same."

/-- `_get_concatenated_shape(arrays, iaxis)` (calls.py lines 1139-1150):
the shape of the first (template) array with component `iaxis` replaced
by the sum of all arrays' `iaxis`-axis lengths. -/
def getConcatenatedShape (arrays : List ConcArray) (iaxis : Nat) : List Nat :=
  let concatenatedAxisLength := (arrays.map fun ary => ary.shapeAt iaxis).sum
  match arrays with
  | [] => []
  | template :: _ =>
      template.shape.mapIdx fun idim dim =>
        if idim ≠ iaxis then dim else concatenatedAxisLength

/- ====================================================================
   Part 3: `_ScalarExprConcatabilityMapper` (calls.py lines 619-688).
   ==================================================================== -/

/-- `Concatenatability` (calls.py lines 367-388): either
`ConcatableAlongAxis(axis)` or `ConcatableIfConstant()`. -/
inductive Concatenatability where
  | alongAxis (axis : Nat)
  | ifConstant
  deriving DecidableEq, Repr

/- Scalar expressions as `_ScalarExprConcatabilityMapper` dispatches on
them: constants (together with `map_nan`), variables, subscripts
`name[i_0, …, i_{k-1}]`, and all remaining pymbolic operations (sums,
products, quotients, comparisons, …), which `scalar_expr.CombineMapper`
treats uniformly by combining the results of their children — modelled by
the binary `operation` constructor. -/
mutual
inductive ScalarExpr where
  | const (value : Int) : ScalarExpr
  | var (name : String) : ScalarExpr
  | operation (left right : ScalarExpr) : ScalarExpr
  | subscript (aggregate : String) (indices : IdxList) : ScalarExpr
  deriving DecidableEq, Repr

inductive IdxList where
  | nil : IdxList
  | cons (head : ScalarExpr) (tail : IdxList) : IdxList
  deriving DecidableEq, Repr
end

/-- The variable `f"_{iaxis}"` that indexes the `iaxis`-th output axis. -/
def iaxisName (iaxis : Nat) : String := "_" ++ toString iaxis

/-- The mapping built by the mapper: a `bnd_name → Concatenatability` dict,
kept as an insertion-ordered association list. -/
abbrev ConcatMap := List (String × Concatenatability)

/-- `result[bnd_name]` lookup in the dict. -/
def ConcatMap.find (m : ConcatMap) (k : String) : Option Concatenatability :=
  match m with
  | [] => none
  | (k₀, c₀) :: rest => if k₀ = k then some c₀ else ConcatMap.find rest k

/-- One step of `_ScalarExprConcatabilityMapper.combine` (calls.py lines
636-651): record `bnd_name → iaxis`; if the dict already binds `bnd_name`
to a different concatenatability, raise `NonConcatableExpression`. -/
def combineInsert (m : ConcatMap) (k : String) (c : Concatenatability) :
    Except Unit ConcatMap :=
  match ConcatMap.find m k with
  | some c₀ => if c₀ = c then .ok m else .error ()
  | none => .ok (m ++ [(k, c)])

/-- Fold `combineInsert` over the entries of one incoming mapping. -/
def combineOne (acc : ConcatMap) : ConcatMap → Except Unit ConcatMap
  | [] => .ok acc
  | (k, c) :: rest =>
      match combineInsert acc k c with
      | .error e => .error e
      | .ok acc' => combineOne acc' rest

/-- `_ScalarExprConcatabilityMapper.combine(values)` (calls.py lines
636-651): fold all incoming `bnd_name → Concatenatability` mappings into
one dict, raising on any conflicting requirement. -/
def combineAll (acc : ConcatMap) : List ConcatMap → Except Unit ConcatMap
  | [] => .ok acc
  | v :: rest =>
      match combineOne acc v with
      | .error e => .error e
      | .ok acc' => combineAll acc' rest

mutual
/-- `_ScalarExprConcatabilityMapper` applied to a scalar expression with
output axis `iaxis` and flag `allow_indirect_addr` (calls.py lines 619-688):

* `map_constant` / `map_nan` return the empty dict;
* `map_variable` raises `NonConcatableExpression` when the name is
  `f"_{iaxis}"`, else returns the empty dict;
* every other operation combines the children's results
  (`scalar_expr.CombineMapper` default);
* `map_subscript` handles `aggregate[i_0, …]` via `mapSubscriptIndices`
  and finally adds `aggregate → ConcatableIfConstant()` when the combined
  index results do not mention `aggregate`.

`NonConcatableExpression` is the `Except.error ()` outcome. -/
def mapScalarConcat (iaxis : Nat) (allowIndirect : Bool) :
    ScalarExpr → Except Unit ConcatMap
  | .const _ => .ok []
  | .var name => if name = iaxisName iaxis then .error () else .ok []
  | .operation a b =>
      match mapScalarConcat iaxis allowIndirect a with
      | .error e => .error e
      | .ok ra =>
          match mapScalarConcat iaxis allowIndirect b with
          | .error e => .error e
          | .ok rb => combineAll [] [ra, rb]
  | .subscript aggregate indices =>
      match mapSubscriptIndices iaxis allowIndirect aggregate 0 indices with
      | .error e => .error e
      | .ok recIndices =>
          match combineAll [] recIndices with
          | .error e => .error e
          | .ok combined =>
              match ConcatMap.find combined aggregate with
              | some _ => .ok combined
              | none => .ok (combined ++ [(aggregate, .ifConstant)])

/-- The loop `for iaxis, idx in enumerate(expr.index_tuple)` of
`map_subscript` (calls.py lines 664-681), with `pos` the running position:
an index that literally is `prim.Variable(f"_{iaxis}")` contributes
`{name: ConcatableAlongAxis(pos)}`; any other index is mapped recursively,
and a nonempty recursive result (an indirect access) raises
`NonConcatableExpression` unless `allow_indirect_addr` is set. -/
def mapSubscriptIndices (iaxis : Nat) (allowIndirect : Bool)
    (aggregate : String) (pos : Nat) :
    IdxList → Except Unit (List ConcatMap)
  | .nil => .ok []
  | .cons idx rest =>
      if idx = .var (iaxisName iaxis) then
        match mapSubscriptIndices iaxis allowIndirect aggregate (pos + 1) rest with
        | .error e => .error e
        | .ok recRest =>
            .ok ([(aggregate, Concatenatability.alongAxis pos)] :: recRest)
      else
        match mapScalarConcat iaxis allowIndirect idx with
        | .error e => .error e
        | .ok recIdx =>
            if recIdx ≠ ([] : ConcatMap) ∧ ¬ allowIndirect then
              .error ()
            else
              match mapSubscriptIndices iaxis allowIndirect aggregate (pos + 1)
                  rest with
              | .error e => .error e
              | .ok recRest => .ok (recIdx :: recRest)
end

/-- Positions (0-based) of the index entries of a subscript that are
literally the variable `f"_{iaxis}"`. -/
def iaxisPositions (iaxis : Nat) (pos : Nat) : IdxList → List Nat
  | .nil => []
  | .cons idx rest =>
      if idx = .var (iaxisName iaxis) then
        pos :: iaxisPositions iaxis (pos + 1) rest
      else
        iaxisPositions iaxis (pos + 1) rest

mutual
/-- The variable `name` occurs somewhere in the expression. -/
def occursVar (name : String) : ScalarExpr → Bool
  | .const _ => false
  | .var n => n == name
  | .operation a b => occursVar name a || occursVar name b
  | .subscript _ indices => occursVarIdx name indices

def occursVarIdx (name : String) : IdxList → Bool
  | .nil => false
  | .cons idx rest => occursVar name idx || occursVarIdx name rest
end

mutual
/-- A *loose* occurrence of the variable `f"_{iaxis}"`: one that is not
itself a whole index entry of some subscript.  The bare variable is loose;
an occurrence inside an index entry `idx` of a subscript is loose when
`idx` is not literally the variable and the occurrence is loose in `idx`. -/
def looseOccur (iaxis : Nat) : ScalarExpr → Bool
  | .const _ => false
  | .var n => n == iaxisName iaxis
  | .operation a b => looseOccur iaxis a || looseOccur iaxis b
  | .subscript _ indices => looseOccurIdx iaxis indices

def looseOccurIdx (iaxis : Nat) : IdxList → Bool
  | .nil => false
  | .cons idx rest =>
      (decide (idx ≠ .var (iaxisName iaxis)) && looseOccur iaxis idx)
        || looseOccurIdx iaxis rest
end

/-- `idx` is an entry of the index list. -/
def IdxList.mem (idx : ScalarExpr) : IdxList → Prop
  | .nil => False
  | .cons head tail => idx = head ∨ IdxList.mem idx tail

/-- The index entry at position `pos`. -/
def IdxList.at? : IdxList → Nat → Option ScalarExpr
  | .nil, _ => none
  | .cons head _, 0 => some head
  | .cons _ tail, pos + 1 => IdxList.at? tail pos

/- ====================================================================
   Part 4: call inlining (`PlaceholderSubstitutor`, `Inliner`,
   calls.py lines 127-220) and unused-binding zeroing
   (`_UsedCallInputCollector`, `_UnusedCallBindingZeroer`,
   `zero_unused_call_bindings`, calls.py lines 242-360).

   Arrays carry their `shape` and `dtype` explicitly.  Function bodies
   (the `returns` of a `FunctionDefinition`) are call-free expressions over
   the function's parameter `Placeholder`s — `concatenate_calls` rejects
   nested calls, and for the claims at hand only single-level calls are
   exercised.  A `NamedCallResult` node carries its `Call` (the
   `InlineCallTag` flag, the function's `returns`, and the `bindings`)
   together with the selected return name.
   ==================================================================== -/

/-- A call-free expression of a function body: a parameter `Placeholder`,
a leaf array (e.g. a `DataWrapper`, identified by an opaque payload), or a
generic array operation with two operands. -/
inductive BodyExpr where
  | phold (name : String) (shape : List Nat) (dtype : Nat) : BodyExpr
  | leafB (shape : List Nat) (dtype : Nat) (payload : Nat) : BodyExpr
  | opB (shape : List Nat) (dtype : Nat) (a b : BodyExpr) : BodyExpr
  deriving DecidableEq, Repr

/-- `InputGatherer` restricted to what `_collect_used_call_inputs` consumes:
the names of the `Placeholder`s reachable in a function-body expression. -/
def BodyExpr.inputNames : BodyExpr → List String
  | .phold name _ _ => [name]
  | .leafB _ _ _ => []
  | .opB _ _ a b => a.inputNames ++ b.inputNames

/-- `function.returns[name]` lookup. -/
def lookupRet (rets : List (String × BodyExpr)) (name : String) :
    Option BodyExpr :=
  match rets with
  | [] => none
  | (n, b) :: rest => if n = name then some b else lookupRet rest name

mutual
/-- A caller-side expression: leaves, generic operations, `zeros(...)`
nodes (as produced by `_UnusedCallBindingZeroer`), and
`NamedCallResult` nodes carrying their `Call`. -/
inductive CallerExpr where
  | phold (name : String) (shape : List Nat) (dtype : Nat) : CallerExpr
  | leafE (shape : List Nat) (dtype : Nat) (payload : Nat) : CallerExpr
  | zerosE (shape : List Nat) (dtype : Nat) : CallerExpr
  | opE (shape : List Nat) (dtype : Nat) (a b : CallerExpr) : CallerExpr
  | ncr (inlineTag : Bool) (rets : List (String × BodyExpr))
        (bnds : BndList) (name : String) : CallerExpr
  deriving DecidableEq

/-- The `bindings` of a `Call`: parameter name to caller-side array. -/
inductive BndList where
  | nil : BndList
  | cons (name : String) (bnd : CallerExpr) (rest : BndList) : BndList
  deriving DecidableEq
end

/-- `call.bindings[name]` lookup. -/
def BndList.find : BndList → String → Option CallerExpr
  | .nil, _ => none
  | .cons n b rest, name => if n = name then some b else BndList.find rest name

/-- `expr.shape` of a caller-side expression; a `NamedCallResult` has the
shape of the selected return. -/
def CallerExpr.shapeOf : CallerExpr → List Nat
  | .phold _ s _ => s
  | .leafE s _ _ => s
  | .zerosE s _ => s
  | .opE s _ _ _ => s
  | .ncr _ rets _ name =>
      match lookupRet rets name with
      | some (.phold _ s _) => s
      | some (.leafB s _ _) => s
      | some (.opB s _ _ _) => s
      | none => []

/-- `expr.dtype` of a caller-side expression. -/
def CallerExpr.dtypeOf : CallerExpr → Nat
  | .phold _ _ d => d
  | .leafE _ d _ => d
  | .zerosE _ d => d
  | .opE _ d _ _ => d
  | .ncr _ rets _ name =>
      match lookupRet rets name with
      | some (.phold _ _ d) => d
      | some (.leafB _ d _) => d
      | some (.opB _ d _ _) => d
      | none => 0

/-- `PlaceholderSubstitutor` (calls.py lines 127-155) applied to a function
body with the call's `bindings` as the substitution map: a `CopyMapper`
that replaces each `Placeholder` by `self.substitutions[expr.name]` and
copies every other node.  (For a well-formed call every body placeholder is
bound; a missing name — a `KeyError` in the source — keeps the placeholder.) -/
def substB (body : BodyExpr) (bnds : BndList) : CallerExpr :=
  match body with
  | .phold name s d =>
      match BndList.find bnds name with
      | some e => e
      | none => .phold name s d
  | .leafB s d p => .leafE s d p
  | .opB s d a b => .opE s d (substB a bnds) (substB b bnds)

mutual
/-- Nesting depth of `Call`s below a caller-side expression (used as the
termination measure of the inliner). -/
def CallerExpr.callDepth : CallerExpr → Nat
  | .phold _ _ _ => 0
  | .leafE _ _ _ => 0
  | .zerosE _ _ => 0
  | .opE _ _ a b => max a.callDepth b.callDepth
  | .ncr _ _ bnds _ => 1 + bnds.callDepth

def BndList.callDepth : BndList → Nat
  | .nil => 0
  | .cons _ bnd rest => max bnd.callDepth rest.callDepth
end

mutual
/-- `Inliner` (calls.py lines 158-199) together with `inline_calls`
(calls.py lines 214-220):

* `map_call` on a `Call` tagged `InlineCallTag` returns the
  `DictOfNamedArrays` whose value at each return name is
  `self.rec(substitutor(ret))`; `map_named_call_result` on such a call
  picks `[...].expr` of that dictionary — so an inline-tagged
  `NamedCallResult` becomes `rec(substB(returns[name], bindings))`;
* on a `Call` without the tag, `CopyMapper.map_call` recurses into the
  function definition (call-free here, hence unchanged) and the
  bindings, and `map_named_call_result` returns `new_call[name]` —
  the `Call` node remains a `Call`;
* all other nodes are copied recursively. -/
def inlineE : CallerExpr → CallerExpr
  | .phold name s d => .phold name s d
  | .leafE s d p => .leafE s d p
  | .zerosE s d => .zerosE s d
  | .opE s d a b => .opE s d (inlineE a) (inlineE b)
  | .ncr true rets bnds name =>
      inlineE (substB ((lookupRet rets name).getD (.leafB [] 0 0)) bnds)
  | .ncr false rets bnds name => .ncr false rets (inlineBnds bnds) name
  termination_by e => (e.callDepth, sizeOf e)
  decreasing_by
  · apply Prod.Lex.right'
    · simp [CallerExpr.callDepth]
    · simp; try omega
  · apply Prod.Lex.right'
    · simp [CallerExpr.callDepth]
    · simp; try omega
  · apply Prod.Lex.left
    have hfind : ∀ (k : Nat) (bs : BndList), sizeOf bs ≤ k →
        ∀ (n : String) (e : CallerExpr),
        BndList.find bs n = some e → e.callDepth ≤ bs.callDepth := by
      intro k
      induction k with
      | zero =>
          intro bs hk
          cases bs with
          | nil => intro n e h; simp [BndList.find] at h
          | cons bn bb rest => simp at hk; try omega
      | succ k ih =>
          intro bs hk
          cases bs with
          | nil => intro n e h; simp [BndList.find] at h
          | cons bn bb rest =>
              intro n e h
              simp only [BndList.find] at h
              by_cases hbn : bn = n
              · simp [hbn] at h
                simp [BndList.callDepth, ← h]
              · simp [hbn] at h
                have hrest : sizeOf rest ≤ k := by simp at hk; omega
                have := ih rest hrest n e h
                simp [BndList.callDepth]
                exact Or.inr this
    have hsub : ∀ (body : BodyExpr) (bs : BndList),
        (substB body bs).callDepth ≤ bs.callDepth := by
      intro body
      induction body with
      | phold name s d =>
          intro bs
          simp only [substB]
          cases hf : BndList.find bs name with
          | some e => exact hfind (sizeOf bs) bs le_rfl name e hf
          | none => simp [CallerExpr.callDepth]
      | leafB s d p => intro bs; simp [substB, CallerExpr.callDepth]
      | opB s d a b iha ihb =>
          intro bs
          simp only [substB, CallerExpr.callDepth]
          exact max_le (iha bs) (ihb bs)
    calc (substB ((lookupRet rets name).getD (.leafB [] 0 0)) bnds).callDepth
        ≤ bnds.callDepth := hsub _ _
      _ < (CallerExpr.ncr true rets bnds name).callDepth := by
          simp [CallerExpr.callDepth]
  · apply Prod.Lex.right'
    · simp [BndList.callDepth, CallerExpr.callDepth]
    · simp; try omega

/-- The inliner mapped over a `Call`'s bindings. -/
def inlineBnds : BndList → BndList
  | .nil => .nil
  | .cons n bnd rest => .cons n (inlineE bnd) (inlineBnds rest)
  termination_by bs => (bs.callDepth, sizeOf bs)
  decreasing_by
  · apply Prod.Lex.right'
    · simp [BndList.callDepth]
    · simp; try omega
  · apply Prod.Lex.right'
    · simp [BndList.callDepth]
    · simp; try omega
end

mutual
/-- No `Call` tagged `InlineCallTag` occurs in the expression. -/
def noInlineTaggedCalls : CallerExpr → Bool
  | .phold _ _ _ => true
  | .leafE _ _ _ => true
  | .zerosE _ _ => true
  | .opE _ _ a b => noInlineTaggedCalls a && noInlineTaggedCalls b
  | .ncr inl _ bnds _ => !inl && noInlineTaggedCallsBnds bnds

def noInlineTaggedCallsBnds : BndList → Bool
  | .nil => true
  | .cons _ bnd rest => noInlineTaggedCalls bnd && noInlineTaggedCallsBnds rest
end

/-- The data identifying a `Call` node as a dictionary key of
`call_to_used_inputs` (`Call`s are compared structurally in the source). -/
structure CallKey where
  inlineTag : Bool
  rets : List (String × BodyExpr)
  bnds : BndList
  deriving DecidableEq

mutual
/-- `_UsedCallInputCollector` (calls.py lines 242-283) as the list of
`(call, used return name)` pairs it encounters: `map_named_call_result`
records that `expr.name` of `expr._container` is used, and the walk
continues into the call's bindings. -/
def collectUsedPairs : CallerExpr → List (CallKey × String)
  | .phold _ _ _ => []
  | .leafE _ _ _ => []
  | .zerosE _ _ => []
  | .opE _ _ a b => collectUsedPairs a ++ collectUsedPairs b
  | .ncr inl rets bnds name =>
      (⟨inl, rets, bnds⟩, name) :: collectUsedPairsBnds bnds

def collectUsedPairsBnds : BndList → List (CallKey × String)
  | .nil => []
  | .cons _ bnd rest => collectUsedPairs bnd ++ collectUsedPairsBnds rest
end

/-- `_collect_used_call_inputs` (calls.py lines 286-300) evaluated at one
call: the union, over the return names of the call used by the expression,
of `InputGatherer()(call.function.returns[name])`. -/
def usedInputsOf (root : CallerExpr) (key : CallKey) : List String :=
  ((collectUsedPairs root).filter (fun p => p.1 = key)).flatMap
    (fun p => ((lookupRet key.rets p.2).getD (.leafB [] 0 0)).inputNames)

mutual
/-- `_UnusedCallBindingZeroer` (calls.py lines 307-349) with the
`call_to_used_inputs` map abstracted as the predicate `used`:
`map_call` rebuilds each binding as `self.rec(bnd)` when
`expr.function.get_placeholder(name)` is in the call's used inputs and as
`zeros(bnd.shape, bnd.dtype)` otherwise; every other node is copied. -/
def zeroUnusedE (used : CallKey → String → Bool) : CallerExpr → CallerExpr
  | .phold name s d => .phold name s d
  | .leafE s d p => .leafE s d p
  | .zerosE s d => .zerosE s d
  | .opE s d a b => .opE s d (zeroUnusedE used a) (zeroUnusedE used b)
  | .ncr inl rets bnds name =>
      .ncr inl rets (zeroUnusedBnds used ⟨inl, rets, bnds⟩ bnds) name

def zeroUnusedBnds (used : CallKey → String → Bool) (key : CallKey) :
    BndList → BndList
  | .nil => .nil
  | .cons pn bnd rest =>
      .cons pn
        (if used key pn then zeroUnusedE used bnd
         else .zerosE bnd.shapeOf bnd.dtypeOf)
        (zeroUnusedBnds used key rest)
end

/-- `zero_unused_call_bindings` (calls.py lines 352-360): collect the used
call inputs, then zero the bindings of unused parameters. -/
def zeroUnusedCallBindings (root : CallerExpr) : CallerExpr :=
  zeroUnusedE (fun key pn => pn ∈ usedInputsOf root key) root

/- ====================================================================
   Part 5: `add_store` (target/loopy/codegen.py lines 906-988).
   ==================================================================== -/

/-- An iteration domain as `domain_for_shape` produces it: set dimensions
(the inames) with the half-open bounds `0 ≤ iname < shape_i`. -/
structure LoopDomain where
  inames : List String
  shape : List Nat
  deriving DecidableEq, Repr

/-- The assignment instruction built by `add_store` via `make_assignment`. -/
structure StoreInsn where
  id : String
  assigneeName : String
  withinInames : List String
  dependsOn : List String
  deriving DecidableEq, Repr

/-- The parts of a `loopy.LoopKernel` that `add_store` updates: output
arguments, temporary variables, domains, instructions, and the iname tags
set by `lp.tag_inames`. -/
structure LoopKernel where
  args : List String
  temporaryVariables : List String
  domains : List LoopDomain
  instructions : List StoreInsn
  inameTags : List (String × Nat)
  deriving DecidableEq, Repr

/-- `add_store(name, expr, result, state, cgen_mapper, output_to_temporary)`
(target/loopy/codegen.py lines 906-988).  `exprShape` is `expr.shape` (the
empty-array check `are_shape_components_equal(s_i, 0)` becomes `s_i = 0`),
`axesTags` the per-axis tag sets of `expr.axes` (tags the mapper does not
filter out), `dependsOn` the accumulated expression dependencies.  Returns
the updated kernel and the new instruction id. -/
def addStore (name : String) (exprShape : List Nat)
    (axesTags : List (List Nat)) (dependsOn : List String)
    (outputToTemporary : Bool) (kernel : LoopKernel) :
    LoopKernel × String :=
  let inames := (List.range exprShape.length).map
    fun d => name ++ "_dim" ++ toString d
  let insnId := name ++ "_store"
  let insn : StoreInsn :=
    { id := insnId, assigneeName := name,
      withinInames := inames, dependsOn := dependsOn }
  let domain : LoopDomain := { inames := inames, shape := exprShape }
  let resultIsEmpty := exprShape.any fun s => s == 0
  let additionalDomains := if resultIsEmpty then [] else [domain]
  let additionalInsns := if resultIsEmpty then [] else [insn]
  let kernel1 :=
    if outputToTemporary then
      { kernel with
          temporaryVariables := kernel.temporaryVariables ++ [name],
          domains := kernel.domains ++ additionalDomains,
          instructions := kernel.instructions ++ additionalInsns }
    else
      { kernel with
          args := kernel.args ++ [name],
          domains := kernel.domains ++ additionalDomains,
          instructions := kernel.instructions ++ additionalInsns }
  let kernel2 :=
    if resultIsEmpty then kernel1
    else
      { kernel1 with
          inameTags := kernel1.inameTags ++
            ((inames.zip axesTags).flatMap
              fun p => p.2.map fun t => (p.1, t)) }
  (kernel2, insnId)

/- ====================================================================
   Part 6: batching order in `concatenate_calls`
   (calls.py lines 2109-2180).
   ==================================================================== -/

/-- A ready, similar call site, as inspected by `get_axis0_len`
(calls.py lines 2169-2175): it carries the common axis-0 length of the
call's outputs, plus an identity distinguishing the sites. -/
structure CSite where
  siteId : Nat
  axis0Len : Nat
  deriving DecidableEq, Repr

/-- `get_axis0_len(cs)` (calls.py lines 2169-2175). -/
def getAxis0Len (cs : CSite) : Nat := cs.axis0Len

/-- Insertion of one element into a sorted list, placing it before the
first element with a strictly larger key (so that elements with equal keys
keep their relative order). -/
def insertByAxis0Len (cs : CSite) : List CSite → List CSite
  | [] => [cs]
  | c :: rest =>
      if getAxis0Len cs ≤ getAxis0Len c then cs :: c :: rest
      else c :: insertByAxis0Len cs rest

/-- `sorted(similar_call_sites, key=get_axis0_len)` (calls.py line 2177):
Python's `sorted` is a *stable* sort of its argument's iteration order;
`similar_call_sites` is a `frozenset`, so that iteration order — here the
explicit input list `enum` — is whatever enumeration order the set
exhibits in the current process. -/
def pythonSortedByAxis0Len : List CSite → List CSite
  | [] => []
  | c :: rest => insertByAxis0Len c (pythonSortedByAxis0Len rest)

/-- The batch built from one group of mutually similar ready call sites
(calls.py line 2177: `batch_call_sites = sorted(similar_call_sites,
key=get_axis0_len)`), and — through
`_get_replacement_map_post_concatenating`, which concatenates bindings and
assigns output slices *in the order of this list* — the order of the
per-site pieces in the transformed output DAG. -/
def concatBatchOrder (enum : List CSite) : List CSite :=
  pythonSortedByAxis0Len enum

/- ====================================================================
   Part 7: fatal lowering errors
   (target/loopy/codegen.py lines 484-510 and 650-661,
   codegen.py lines 167-170, target/loopy/codegen.py lines 1127-1131).
   ==================================================================== -/

/-- Array tags as the implementation-strategy dispatch of
`CodeGenMapper.map_index_lambda` distinguishes them: the three supported
`ImplementationStrategy` subclasses, any other `ImplementationStrategy`
subclass, and tags that are no implementation strategy at all. -/
inductive ImplTag where
  | implStored
  | implInlined
  | implSubstitution
  | otherStrategy (k : Nat)
  | nonStrategy (k : Nat)
  deriving DecidableEq, Repr

/-- `isinstance(tag, ImplementationStrategy)`. -/
def isStrategyTag : ImplTag → Bool
  | .implStored => true
  | .implInlined => true
  | .implSubstitution => true
  | .otherStrategy _ => true
  | .nonStrategy _ => false

/-- How an `IndexLambda` ends up implemented. -/
inductive ImplKind where
  | stored
  | inlined
  | substitution
  deriving DecidableEq, Repr

/-- The `tags_of_type` dispatch chain of `CodeGenMapper.map_index_lambda`
(target/loopy/codegen.py lines 484-510): `ImplStored` promotes to a store,
`ImplInlined` and the default inline, `ImplSubstitution` emits a
substitution rule, and any remaining `ImplementationStrategy` raises
`NotImplementedError`. -/
def mapIndexLambdaImplTag (tags : List ImplTag) : Except String ImplKind :=
  if tags.any fun t => t == .implStored then .ok .stored
  else if tags.any fun t => t == .implInlined then .ok .inlined
  else if tags.any fun t => t == .implSubstitution then .ok .substitution
  else if tags.any isStrategyTag then
    .error "Implementation strategy not implemented."
  else .ok .inlined

/-- The node kinds the claims about `CodeGenMapper` distinguish. -/
inductive CgNodeKind where
  | indexLambdaNode (tags : List ImplTag)
  | callNode (tags : List ImplTag)
  | namedCallResultNode (tags : List ImplTag)
  deriving DecidableEq, Repr

/-- `CodeGenMapper` on the nodes at issue: `map_index_lambda` dispatches on
the implementation tags; `map_call` and `map_named_call_result`
(target/loopy/codegen.py lines 650-661) unconditionally raise
`NotImplementedError` for outlined calls. -/
def codeGenMapperDispatch : CgNodeKind → Except String ImplKind
  | .indexLambdaNode tags => mapIndexLambdaImplTag tags
  | .callNode _ =>
      .error "LoopyTarget does not support outlined calls."
  | .namedCallResultNode _ =>
      .error "LoopyTarget does not support outlined calls."

/-- `CodeGenPreprocessor.map_loopy_call` (codegen.py lines 167-170):
`if not isinstance(self.target, LoopyTarget): raise ValueError(...)`. -/
def preprocMapLoopyCall (targetIsLoopyTarget : Bool) : Except String Unit :=
  if ¬ targetIsLoopyTarget then
    .error "Got a LoopyCall for a non-loopy target."
  else .ok ()

/-- The `options.return_dict` check of `generate_loopy`
(target/loopy/codegen.py lines 1127-1131): when no options are supplied,
`lp.Options(return_dict=result_is_dict)` is created; a supplied options
object whose `return_dict` does not match `result_is_dict` raises
`ValueError`. -/
def generateLoopyReturnDictCheck (resultIsDict : Bool)
    (optionsReturnDict : Option Bool) : Except String Bool :=
  let options := optionsReturnDict.getD resultIsDict
  if options ≠ resultIsDict then
    .error "options.return_dict is expected to match whether the returned value is a dictionary"
  else .ok options

/- ====================================================================
   Part 8: structural equality of arrays (array.py lines 319-424).
   ==================================================================== -/

/-- An instance of the `Array` base class of array.py (lines 319-424) as
far as equality and hashing inspect it: the object identity `objId`, and
the fields set by `Array.__init__` — `namespace`, `tags`, `dtype`
(as opaque codes). -/
structure PyArray2020 where
  objId : Nat
  namespaceId : Nat
  tags : List Nat
  dtypeCode : Nat
  deriving DecidableEq, Repr

/-- `a == b` for the `Array` of array.py lines 319-424: the class defines
neither `__eq__` nor `__hash__`, so CPython's `object` defaults apply and
`a == b` holds exactly when `a is b` — object identity. -/
def pyArrayEq (a b : PyArray2020) : Bool := a.objId == b.objId

/-- `hash(a)` for the same class: CPython's default `object.__hash__`,
derived from the object identity `id(a)`. -/
def pyArrayHash (a : PyArray2020) : Nat := a.objId

/-- The tuple of fields a deep structural comparison would inspect. -/
def pyArrayFields (a : PyArray2020) : Nat × List Nat × Nat :=
  (a.namespaceId, a.tags, a.dtypeCode)

/- ====================================================================
   Part 9: tagging of concatenated inputs and output slices
   (`_InputConcatenator`, calls.py lines 1354-1368; `_OutputSlicer`,
   calls.py lines 1372-1405; binding construction in
   `_get_replacement_map_post_concatenating`, calls.py lines 1992-2006).
   ==================================================================== -/

/-- The tag vocabulary the concatenation rewrite attaches. -/
inductive PtTag where
  | implStoredTag
  | concatInputConcatAxisTag
  | concatOutputSliceAxisTag
  | useInputAxisTag (arg : Option Nat) (axis : Nat)
  | miscTag (k : Nat)
  deriving DecidableEq, Repr

/-- An array as far as the tagging claims inspect it: dimensionality,
array tags, and per-axis tag sets. -/
structure TaggedArray where
  ndim : Nat
  tags : List PtTag
  axesTags : List (List PtTag)
  deriving DecidableEq, Repr

/-- `ary.tagged(tag)`. -/
def TaggedArray.taggedWith (a : TaggedArray) (t : PtTag) : TaggedArray :=
  { a with tags := a.tags ++ [t] }

/-- `ary.with_tagged_axis(axis, tags)`: add `tags` to the tag set of the
`axis`-th `Axis` descriptor. -/
def TaggedArray.withTaggedAxis (a : TaggedArray) (axis : Nat)
    (ts : List PtTag) : TaggedArray :=
  { a with axesTags := a.axesTags.set axis (a.axesTags.getD axis [] ++ ts) }

/-- `concatenate(arrays, axis)`: a fresh `Concatenate` node — no array
tags, default (empty) axis tag sets, dimensionality of the first input. -/
def concatenateT (arrays : List TaggedArray) (axis : Nat) : TaggedArray :=
  let ndim := match arrays with
    | [] => 0
    | a :: _ => a.ndim
  { ndim := ndim, tags := [], axesTags := List.replicate ndim [] }

/-- `ary[tuple(indices)]` with a `slice(start, stop)` at position `axis`:
a fresh `BasicIndex` node — no array tags, default axis tag sets, same
dimensionality. -/
def basicIndexT (ary : TaggedArray) (axis start stop : Nat) : TaggedArray :=
  { ndim := ary.ndim, tags := [], axesTags := List.replicate ary.ndim [] }

/-- `_InputConcatenator.__call__(arrays, axis)` (calls.py lines 1354-1368):
concatenate, tag the concatenation axis with `UseInputAxis(0, axis)` when
`inherit_axes` is set and with `ConcatenatedCallInputConcatAxisTag()`
otherwise, and tag the array `ImplStored()`. -/
def inputConcatenatorCall (inheritAxes : Bool) (arrays : List TaggedArray)
    (axis : Nat) : TaggedArray :=
  let concatAxisTag :=
    if inheritAxes then PtTag.useInputAxisTag (some 0) axis
    else PtTag.concatInputConcatAxisTag
  ((concatenateT arrays axis).withTaggedAxis axis [concatAxisTag]).taggedWith
    .implStoredTag

/-- `_OutputSlicer._get_slice(ary, axis, start_idx, end_idx)` (calls.py
lines 1377-1392): slice, tag the slice axis with `UseInputAxis(None, axis)`
when `inherit_axes` is set and with
`ConcatenatedCallOutputSliceAxisTag()` otherwise, and tag the array
`ImplStored()`. -/
def outputSlicerGetSlice (inheritAxes : Bool) (ary : TaggedArray)
    (axis start stop : Nat) : TaggedArray :=
  let sliceAxisTag :=
    if inheritAxes then PtTag.useInputAxisTag none axis
    else PtTag.concatOutputSliceAxisTag
  ((basicIndexT ary axis start stop).withTaggedAxis axis
    [sliceAxisTag]).taggedWith .implStoredTag

/-- `_OutputSlicer.__call__(ary, axis, slice_sizes)` (calls.py lines
1394-1405), using the start/end lists of Part 1. -/
def outputSlicerCall (inheritAxes : Bool) (ary : TaggedArray) (axis : Nat)
    (sliceSizes : List Nat) : List TaggedArray :=
  (outputSliceBounds sliceSizes).map
    fun se => outputSlicerGetSlice inheritAxes ary axis se.1 se.2

/-- Construction of one new call binding in
`_get_replacement_map_post_concatenating` (calls.py lines 1992-2006):
a parameter classified `ConcatableAlongAxis` gets the concatenation of the
per-site bindings, a parameter classified `ConcatableIfConstant` keeps the
template call site's binding unchanged. -/
def newCallBinding (inheritAxes : Bool) (paramConcat : Concatenatability)
    (templateBinding : TaggedArray) (paramBindings : List TaggedArray) :
    TaggedArray :=
  match paramConcat with
  | .alongAxis axis => inputConcatenatorCall inheritAxes paramBindings axis
  | .ifConstant => templateBinding

/-- The passthrough of `ConcatableIfConstant` nodes inside the rewritten
function body: every `_FunctionConcatenator.map_*` method returns `expr`
unchanged when the recorded concatenatability is `ConcatableIfConstant`
(calls.py lines 1448-1449, 1467-1468, 1480-1481, …). -/
def functionConcatenatorOnConstant (expr : TaggedArray) : TaggedArray := expr

/- ====================================================================
   Theorems.
   ==================================================================== -/

theorem outputSliceBoundsAux_length (sizes : List Nat) :
    ∀ prevEnd, (outputSliceBoundsAux prevEnd sizes).length = sizes.length := by
  induction sizes with
  | nil => intro prevEnd; rfl
  | cons s rest ih =>
      intro prevEnd
      simp [outputSliceBoundsAux, ih]

theorem outputSliceBoundsAux_getD (sizes : List Nat) :
    ∀ prevEnd i, i < sizes.length →
      (outputSliceBoundsAux prevEnd sizes).getD i (0, 0)
        = (prevEnd + (sizes.take i).sum, prevEnd + (sizes.take (i + 1)).sum) := by
  induction sizes with
  | nil => intro prevEnd i hi; simp at hi
  | cons s rest ih =>
      intro prevEnd i hi
      cases i with
      | zero => simp [outputSliceBoundsAux]
      | succ i =>
          have hi' : i < rest.length := by simpa using hi
          simp only [outputSliceBoundsAux, List.getD_cons_succ]
          rw [ih (prevEnd + s) i hi']
          simp [Nat.add_assoc]

/-- C1.  For a validated concatenation plan, the replacement of the
`i`-th call site's `NamedCallResult` is the slice of the concatenated
return whose start index is the sum of the preceding sites' axis lengths
and whose length is the `i`-th site's axis length; the slices are
contiguous (the first starts at 0, each next start equals the previous
end), and — reading the concatenated return as the per-site contents
laid end to end along the concatenation axis — the `i`-th slice recovers
exactly the `i`-th site's content. -/
theorem concatenated_output_slice_bounds (siteAxisLens : List Nat) (i : Nat)
    (hi : i < siteAxisLens.length) :
    (replacementSliceBounds siteAxisLens).length = siteAxisLens.length
    ∧ ((replacementSliceBounds siteAxisLens).getD i (0, 0)).1
        = (siteAxisLens.take i).sum
    ∧ ((replacementSliceBounds siteAxisLens).getD i (0, 0)).2
        = (siteAxisLens.take i).sum + siteAxisLens.getD i 0
    ∧ ((replacementSliceBounds siteAxisLens).getD 0 (0, 0)).1 = 0
    ∧ (i + 1 < siteAxisLens.length →
        ((replacementSliceBounds siteAxisLens).getD (i + 1) (0, 0)).1
          = ((replacementSliceBounds siteAxisLens).getD i (0, 0)).2)
    ∧ ∀ {α : Type} (parts : List (List α)),
        parts.map List.length = siteAxisLens →
        sliceAxis parts.flatten
            ((replacementSliceBounds siteAxisLens).getD i (0, 0)).1
            ((replacementSliceBounds siteAxisLens).getD i (0, 0)).2
          = parts.getD i [] := by
  have hlen0 : 0 < siteAxisLens.length := Nat.lt_of_le_of_lt (Nat.zero_le i) hi
  have hbounds := outputSliceBoundsAux_getD siteAxisLens 0 i hi
  have hsumsucc : (siteAxisLens.take (i + 1)).sum
      = (siteAxisLens.take i).sum + siteAxisLens.getD i 0 := by
    have := List.sum_take_succ siteAxisLens i hi
    rw [this, List.getD_eq_getElem siteAxisLens 0 hi]
  refine ⟨?_, ?_, ?_, ?_, ?_, ?_⟩
  · exact outputSliceBoundsAux_length siteAxisLens 0
  · simp only [replacementSliceBounds, outputSliceBounds]
    rw [hbounds]
    simp
  · simp only [replacementSliceBounds, outputSliceBounds]
    rw [hbounds]
    simp [hsumsucc]
  · have h0 := outputSliceBoundsAux_getD siteAxisLens 0 0 hlen0
    simp only [replacementSliceBounds, outputSliceBounds]
    rw [h0]
    simp
  · intro hsucc
    have hb' := outputSliceBoundsAux_getD siteAxisLens 0 (i + 1) hsucc
    simp only [replacementSliceBounds, outputSliceBounds]
    rw [hbounds, hb']
  · intro α parts hparts
    have hplen : i < parts.length := by
      have : parts.length = siteAxisLens.length := by
        rw [← hparts]; simp
      omega
    have hslice := List.drop_take_succ_flatten_eq_getElem parts i hplen
    simp only [replacementSliceBounds, outputSliceBounds, hbounds]
    simp only [sliceAxis]
    rw [← hparts]
    simp only [Nat.zero_add]
    rw [hslice]
    rw [List.getD_eq_getElem parts [] hplen]

/-- Closed instantiation of `concatenated_output_slice_bounds` at
call-site axis lengths `[2, 1]`, slice index 1. -/
theorem concatenated_output_slice_bounds_witness :
    ((replacementSliceBounds [2, 1]).getD 1 (0, 0)).1 = 2
    ∧ ((replacementSliceBounds [2, 1]).getD 1 (0, 0)).2 = 3
    ∧ sliceAxis ([[10, 20], [30]] : List (List Nat)).flatten
        ((replacementSliceBounds [2, 1]).getD 1 (0, 0)).1
        ((replacementSliceBounds [2, 1]).getD 1 (0, 0)).2 = [30] := by
  have h := concatenated_output_slice_bounds [2, 1] 1 (by decide)
  refine ⟨?_, ?_, ?_⟩
  · rw [h.2.1]; decide
  · rw [h.2.2.1]; decide
  · rw [h.2.2.2.2.2 [[10, 20], [30]] (by decide)]; decide

theorem haveSameAxisLength_iff (a : ConcArray) (rest : List ConcArray)
    (iaxis : Nat) :
    haveSameAxisLength (a :: rest) iaxis = true
      ↔ ∀ ary ∈ a :: rest, ary.shapeAt iaxis = a.shapeAt iaxis := by
  simp [haveSameAxisLength]

theorem haveSameAxisLengthExcept_iff (a : ConcArray) (rest : List ConcArray)
    (iaxis : Nat) :
    haveSameAxisLengthExcept (a :: rest) iaxis = true
      ↔ ((∀ ary ∈ a :: rest, ary.ndim = a.ndim)
         ∧ ∀ idim, idim < a.ndim → idim ≠ iaxis →
             ∀ ary ∈ a :: rest, ary.shapeAt idim = a.shapeAt idim) := by
  simp only [haveSameAxisLengthExcept, Bool.and_eq_true, List.all_eq_true,
    List.mem_range, beq_iff_eq, Bool.or_eq_true, decide_eq_true_eq]
  constructor
  · rintro ⟨hndim, haxes⟩
    refine ⟨hndim, ?_⟩
    intro idim hdim hne ary hary
    rcases haxes idim hdim with h | h
    · exact absurd h hne
    · exact (haveSameAxisLength_iff a rest idim).1 h ary hary
  · rintro ⟨hndim, haxes⟩
    refine ⟨hndim, ?_⟩
    intro idim hdim
    by_cases hia : idim = iaxis
    · exact Or.inl hia
    · exact Or.inr ((haveSameAxisLength_iff a rest idim).2
        (haxes idim hdim hia))

theorem fieldIsSingleValued_iff (a : ConcArray) (rest : List ConcArray)
    (f : ConcField) :
    fieldIsSingleValued (a :: rest) f = true
      ↔ ∀ ary ∈ a :: rest, getField ary f = getField a f := by
  simp [fieldIsSingleValued]

/-- C3.  `_verify_arrays_can_be_concated_along_axis` accepts a candidate
group of arrays exactly when all arrays have the dimensionality of the
template (first) array, equal axis lengths on every axis other than the
concatenation axis, and equal required fields; and
`_get_concatenated_shape` returns the template's shape with the
concatenation-axis component replaced by the sum of all arrays' axis
lengths. -/
theorem verify_and_concatenated_shape (arrays : List ConcArray)
    (fields : List ConcField) (iaxis : Nat) (a : ConcArray)
    (rest : List ConcArray) (hne : arrays = a :: rest) :
    (verifyArraysCanBeConcatedAlongAxis arrays fields iaxis = .ok ()
      ↔ ((∀ ary ∈ arrays, ary.ndim = a.ndim)
         ∧ (∀ idim, idim < a.ndim → idim ≠ iaxis →
              ∀ ary ∈ arrays, ary.shapeAt idim = a.shapeAt idim)
         ∧ (∀ f ∈ fields, ∀ ary ∈ arrays, getField ary f = getField a f)))
    ∧ (getConcatenatedShape arrays iaxis).length = a.shape.length
    ∧ (∀ idim, idim < a.shape.length →
         (getConcatenatedShape arrays iaxis).getD idim 0
           = (if idim = iaxis
              then (arrays.map fun ary => ary.shapeAt iaxis).sum
              else a.shape.getD idim 0)) := by
  subst hne
  constructor
  · unfold verifyArraysCanBeConcatedAlongAxis
    by_cases hax : haveSameAxisLengthExcept (a :: rest) iaxis = true
    · rw [if_neg (by simp [hax])]
      constructor
      · intro hok
        rcases (haveSameAxisLengthExcept_iff a rest iaxis).1 hax with ⟨h1, h2⟩
        refine ⟨h1, h2, ?_⟩
        intro f hf ary hary
        cases hfind : (fields.find? fun f => ¬ fieldIsSingleValued (a :: rest) f) with
        | some g => rw [hfind] at hok; exact absurd hok (by simp)
        | none =>
            have := List.find?_eq_none.1 hfind f hf
            simp only [Bool.not_eq_true', decide_eq_true_eq] at this
            have hsv : fieldIsSingleValued (a :: rest) f = true := by
              by_contra hc
              exact this (by simpa using hc)
            exact (fieldIsSingleValued_iff a rest f).1 hsv ary hary
      · rintro ⟨h1, h2, h3⟩
        have hfind : (fields.find? fun f => ¬ fieldIsSingleValued (a :: rest) f)
            = none := by
          rw [List.find?_eq_none]
          intro f hf
          have hsv : fieldIsSingleValued (a :: rest) f = true :=
            (fieldIsSingleValued_iff a rest f).2 (h3 f hf)
          simp [hsv]
        rw [hfind]
    · simp only [Bool.not_eq_true] at hax
      rw [if_pos (by simp [hax])]
      constructor
      · intro h; exact absurd h (by simp)
      · rintro ⟨h1, h2, h3⟩
        have : haveSameAxisLengthExcept (a :: rest) iaxis = true :=
          (haveSameAxisLengthExcept_iff a rest iaxis).2 ⟨h1, h2⟩
        rw [this] at hax
        exact absurd hax (by simp)
  · constructor
    · simp [getConcatenatedShape]
    · intro idim hdim
      have hlt : idim < (getConcatenatedShape (a :: rest) iaxis).length := by
        simpa [getConcatenatedShape] using hdim
      rw [List.getD_eq_getElem _ 0 hlt]
      simp only [getConcatenatedShape, List.getElem_mapIdx]
      by_cases hia : idim = iaxis
      · simp [hia, ConcArray.shapeAt]
      · simp only [hia, if_neg hia, ite_true, if_pos hia]
        rw [List.getD_eq_getElem a.shape 0 hdim]
        simp [hia]

/-- Closed instantiation of `verify_and_concatenated_shape`: two 2×3 and
4×3 arrays with equal dtypes concatenate along axis 0 to shape 6×3. -/
theorem verify_and_concatenated_shape_witness :
    (verifyArraysCanBeConcatedAlongAxis
        [⟨[2, 3], 7, "x"⟩, ⟨[4, 3], 7, "x"⟩] [ConcField.dtypeField] 0 = .ok ())
    ∧ (getConcatenatedShape [⟨[2, 3], 7, "x"⟩, ⟨[4, 3], 7, "x"⟩] 0).getD 0 0 = 6
    ∧ (getConcatenatedShape [⟨[2, 3], 7, "x"⟩, ⟨[4, 3], 7, "x"⟩] 0).getD 1 0 = 3 := by
  have h := verify_and_concatenated_shape
    [⟨[2, 3], 7, "x"⟩, ⟨[4, 3], 7, "x"⟩] [ConcField.dtypeField] 0
    ⟨[2, 3], 7, "x"⟩ [⟨[4, 3], 7, "x"⟩] rfl
  refine ⟨?_, ?_, ?_⟩
  · apply h.1.2
    refine ⟨?_, ?_, ?_⟩
    · decide
    · decide
    · decide
  · rw [h.2.2 0 (by decide)]; decide
  · rw [h.2.2 1 (by decide)]; decide

/-- C6.  For every array stored by `add_store`: when some shape component
is zero, the kernel's domains and instructions are unchanged (only the
output argument or the temporary variable is declared); otherwise exactly
one domain and one assignment instruction are appended. -/
theorem addStore_empty_array_shortcircuit (name : String)
    (exprShape : List Nat) (axesTags : List (List Nat))
    (dependsOn : List String) (outputToTemporary : Bool)
    (kernel : LoopKernel) :
    ((exprShape.any fun s => s == 0) = true →
      ((addStore name exprShape axesTags dependsOn outputToTemporary
          kernel).1.domains = kernel.domains
       ∧ (addStore name exprShape axesTags dependsOn outputToTemporary
          kernel).1.instructions = kernel.instructions))
    ∧ ((exprShape.any fun s => s == 0) = false →
      ((addStore name exprShape axesTags dependsOn outputToTemporary
          kernel).1.domains
         = kernel.domains ++
             [{ inames := (List.range exprShape.length).map
                  fun d => name ++ "_dim" ++ toString d,
                shape := exprShape }]
       ∧ (addStore name exprShape axesTags dependsOn outputToTemporary
          kernel).1.instructions
         = kernel.instructions ++
             [{ id := name ++ "_store", assigneeName := name,
                withinInames := (List.range exprShape.length).map
                  fun d => name ++ "_dim" ++ toString d,
                dependsOn := dependsOn }]))
    ∧ (outputToTemporary = true →
        (addStore name exprShape axesTags dependsOn outputToTemporary
          kernel).1.temporaryVariables
          = kernel.temporaryVariables ++ [name]
        ∧ (addStore name exprShape axesTags dependsOn outputToTemporary
          kernel).1.args = kernel.args)
    ∧ (outputToTemporary = false →
        (addStore name exprShape axesTags dependsOn outputToTemporary
          kernel).1.args = kernel.args ++ [name]
        ∧ (addStore name exprShape axesTags dependsOn outputToTemporary
          kernel).1.temporaryVariables = kernel.temporaryVariables) := by
  refine ⟨?_, ?_, ?_, ?_⟩
  · intro hempty
    cases outputToTemporary <;> simp [addStore, hempty]
  · intro hnonempty
    cases outputToTemporary <;> simp [addStore, hnonempty]
  · intro hout
    subst hout
    by_cases hempty : (exprShape.any fun s => s == 0) = true
    · simp [addStore, hempty]
    · simp only [Bool.not_eq_true] at hempty
      simp [addStore, hempty]
  · intro hout
    subst hout
    by_cases hempty : (exprShape.any fun s => s == 0) = true
    · simp [addStore, hempty]
    · simp only [Bool.not_eq_true] at hempty
      simp [addStore, hempty]

/-- Closed instantiation of `addStore_empty_array_shortcircuit`:
shape `[0, 2]` adds no domain or instruction, shape `[3]` adds one each. -/
theorem addStore_empty_array_shortcircuit_witness :
    (addStore "out" [0, 2] [[], []] [] false
        { args := [], temporaryVariables := [], domains := [],
          instructions := [], inameTags := [] }).1.instructions = []
    ∧ (addStore "out" [3] [[]] [] false
        { args := [], temporaryVariables := [], domains := [],
          instructions := [], inameTags := [] }).1.instructions.length = 1 := by
  constructor
  · exact ((addStore_empty_array_shortcircuit "out" [0, 2] [[], []] [] false
      { args := [], temporaryVariables := [], domains := [],
        instructions := [], inameTags := [] }).1 (by decide)).2
  · rw [((addStore_empty_array_shortcircuit "out" [3] [[]] [] false
      { args := [], temporaryVariables := [], domains := [],
        instructions := [], inameTags := [] }).2.1 (by decide)).2]
    decide

theorem insertByAxis0Len_perm (c : CSite) (l : List CSite) :
    (insertByAxis0Len c l).Perm (c :: l) := by
  induction l with
  | nil => rfl
  | cons e rest ih =>
      simp only [insertByAxis0Len]
      by_cases h : getAxis0Len c ≤ getAxis0Len e
      · rw [if_pos h]
      · rw [if_neg h]
        exact (List.Perm.cons e ih).trans (List.Perm.swap c e rest)

theorem pythonSortedByAxis0Len_perm (l : List CSite) :
    (pythonSortedByAxis0Len l).Perm l := by
  induction l with
  | nil => rfl
  | cons c rest ih =>
      simp only [pythonSortedByAxis0Len]
      exact (insertByAxis0Len_perm c (pythonSortedByAxis0Len rest)).trans
        (List.Perm.cons c ih)

theorem insertByAxis0Len_pairwise (c : CSite) (l : List CSite)
    (h : l.Pairwise fun x y => getAxis0Len x ≤ getAxis0Len y) :
    (insertByAxis0Len c l).Pairwise
      fun x y => getAxis0Len x ≤ getAxis0Len y := by
  induction l with
  | nil => simp [insertByAxis0Len]
  | cons e rest ih =>
      rcases List.pairwise_cons.1 h with ⟨he, hrest⟩
      simp only [insertByAxis0Len]
      by_cases hc : getAxis0Len c ≤ getAxis0Len e
      · rw [if_pos hc]
        refine List.pairwise_cons.2 ⟨?_, h⟩
        intro b hb
        rcases List.mem_cons.1 hb with hb | hb
        · subst hb; exact hc
        · exact hc.trans (he b hb)
      · rw [if_neg hc]
        refine List.pairwise_cons.2 ⟨?_, ih hrest⟩
        intro b hb
        have hb' : b ∈ c :: rest :=
          (insertByAxis0Len_perm c rest).mem_iff.1 hb
        rcases List.mem_cons.1 hb' with hb' | hb'
        · subst hb'
          omega
        · exact he b hb'

theorem pythonSortedByAxis0Len_pairwise (l : List CSite) :
    (pythonSortedByAxis0Len l).Pairwise
      fun x y => getAxis0Len x ≤ getAxis0Len y := by
  induction l with
  | nil => simp [pythonSortedByAxis0Len]
  | cons c rest ih =>
      exact insertByAxis0Len_pairwise c (pythonSortedByAxis0Len rest) ih

theorem insertByAxis0Len_filter (c : CSite) (l : List CSite) (k : Nat) :
    (insertByAxis0Len c l).filter (fun x => getAxis0Len x == k)
      = if getAxis0Len c == k
        then c :: l.filter (fun x => getAxis0Len x == k)
        else l.filter (fun x => getAxis0Len x == k) := by
  induction l with
  | nil => simp [insertByAxis0Len, List.filter_cons]
  | cons e rest ih =>
      simp only [insertByAxis0Len]
      by_cases hc : getAxis0Len c ≤ getAxis0Len e
      · rw [if_pos hc]
        simp only [List.filter_cons]
      · rw [if_neg hc]
        simp only [List.filter_cons, ih]
        by_cases hck : getAxis0Len c = k
        · have hek : ¬ (getAxis0Len e = k) := by omega
          simp [hck, hek]
        · by_cases hek : getAxis0Len e = k <;> simp [hck, hek]

theorem pythonSortedByAxis0Len_filter (l : List CSite) (k : Nat) :
    (pythonSortedByAxis0Len l).filter (fun x => getAxis0Len x == k)
      = l.filter (fun x => getAxis0Len x == k) := by
  induction l with
  | nil => rfl
  | cons c rest ih =>
      simp only [pythonSortedByAxis0Len, insertByAxis0Len_filter, ih,
        List.filter_cons]

/-- C7, counterexample.  Two call sites whose first outputs have equal
axis-0 lengths: the batch order — and with it the order in which the
sites' bindings are concatenated and their output slices assigned — is not
a function of the call-site *set* alone, but of the order in which the
`frozenset` of ready call sites happens to be enumerated (which varies
with the process's hash seed).  Two enumerations of the same set yield
different transformed DAGs, refuting bit-for-bit reproducibility across
runs. -/
theorem concatBatchOrder_depends_on_enumeration :
    (([⟨0, 4⟩, ⟨1, 4⟩] : List CSite).Perm [⟨1, 4⟩, ⟨0, 4⟩])
    ∧ concatBatchOrder [⟨0, 4⟩, ⟨1, 4⟩]
        ≠ concatBatchOrder [⟨1, 4⟩, ⟨0, 4⟩] := by
  constructor
  · decide
  · decide

/-- C7, amended.  `concatenate_calls` orders each batch of similar ready
call sites by a *stable* sort on the axis-0 length of the first output,
applied to the runtime enumeration order of the ready-call-site set: the
batch is a permutation of the enumeration, it is sorted by axis-0 length,
and call sites with equal axis-0 lengths keep their relative enumeration
order.  The output is therefore deterministic for a fixed enumeration
order of the set, but not across runs that enumerate the set
differently. -/
theorem concatBatchOrder_stable_sort (enum : List CSite) :
    (concatBatchOrder enum).Perm enum
    ∧ (concatBatchOrder enum).Pairwise
        (fun x y => getAxis0Len x ≤ getAxis0Len y)
    ∧ ∀ k, (concatBatchOrder enum).filter (fun x => getAxis0Len x == k)
        = enum.filter (fun x => getAxis0Len x == k) := by
  refine ⟨pythonSortedByAxis0Len_perm enum,
    pythonSortedByAxis0Len_pairwise enum,
    fun k => pythonSortedByAxis0Len_filter enum k⟩

/-- C8.  Fatal lowering errors: `CodeGenMapper.map_call` and
`map_named_call_result` raise on any outlined call; the preprocessor's
`map_loopy_call` raises exactly when the target is not a loopy target;
`generate_loopy` raises exactly when supplied options whose `return_dict`
does not match whether the result is a dictionary (and defaults the
options to match when none are supplied); and
`CodeGenMapper.map_index_lambda` raises exactly when the `IndexLambda`
carries an `ImplementationStrategy` tag other than the supported
`ImplStored` / `ImplInlined` / `ImplSubstitution` (and none of those
three). -/
theorem lowering_fatal_errors :
    (∀ tags, ∃ msg, codeGenMapperDispatch (.callNode tags) = .error msg)
    ∧ (∀ tags, ∃ msg,
        codeGenMapperDispatch (.namedCallResultNode tags) = .error msg)
    ∧ (∀ targetIsLoopy, (∃ msg, preprocMapLoopyCall targetIsLoopy = .error msg)
        ↔ targetIsLoopy = false)
    ∧ (∀ resultIsDict suppliedReturnDict,
        (∃ msg, generateLoopyReturnDictCheck resultIsDict
            (some suppliedReturnDict) = .error msg)
          ↔ suppliedReturnDict ≠ resultIsDict)
    ∧ (∀ resultIsDict,
        generateLoopyReturnDictCheck resultIsDict none = .ok resultIsDict)
    ∧ (∀ tags, (∃ msg, codeGenMapperDispatch (.indexLambdaNode tags)
            = .error msg)
        ↔ ((tags.any isStrategyTag) = true
           ∧ (tags.any fun t => t == ImplTag.implStored) = false
           ∧ (tags.any fun t => t == ImplTag.implInlined) = false
           ∧ (tags.any fun t => t == ImplTag.implSubstitution) = false)) := by
  refine ⟨?_, ?_, ?_, ?_, ?_, ?_⟩
  · intro tags
    exact ⟨_, rfl⟩
  · intro tags
    exact ⟨_, rfl⟩
  · intro targetIsLoopy
    cases targetIsLoopy <;> simp [preprocMapLoopyCall]
  · intro resultIsDict suppliedReturnDict
    cases resultIsDict <;> cases suppliedReturnDict <;>
      simp [generateLoopyReturnDictCheck]
  · intro resultIsDict
    cases resultIsDict <;> simp [generateLoopyReturnDictCheck]
  · intro tags
    simp only [codeGenMapperDispatch, mapIndexLambdaImplTag]
    by_cases h1 : (tags.any fun t => t == ImplTag.implStored) = true
    · simp [h1]
    · simp only [Bool.not_eq_true] at h1
      by_cases h2 : (tags.any fun t => t == ImplTag.implInlined) = true
      · simp [h1, h2]
      · simp only [Bool.not_eq_true] at h2
        by_cases h3 : (tags.any fun t => t == ImplTag.implSubstitution) = true
        · simp [h1, h2, h3]
        · simp only [Bool.not_eq_true] at h3
          by_cases h4 : (tags.any isStrategyTag) = true
          · simp [h1, h2, h3, h4]
          · simp only [Bool.not_eq_true] at h4
            simp [h1, h2, h3, h4]

/-- C9, evaluation at the failing input.  For the `Array` class of
array.py (lines 319-424), which defines neither `__eq__` nor `__hash__`,
two distinct instances with equal `namespace`, `tags` and `dtype` fields
compare unequal (CPython falls back to identity), so equality is not the
deep structural comparison the class's own docstring ("Objects of this
type are hashable and support structural equality comparison") and the
specification promise; the class has no `non_equality_tags` field at
all.  Identity-based equality does still imply equal hashes. -/
theorem array2020_equality_is_identity_not_structural :
    pyArrayFields ⟨0, 3, [1, 2], 5⟩ = pyArrayFields ⟨1, 3, [1, 2], 5⟩
    ∧ pyArrayEq ⟨0, 3, [1, 2], 5⟩ ⟨1, 3, [1, 2], 5⟩ = false
    ∧ pyArrayHash ⟨0, 3, [1, 2], 5⟩ ≠ pyArrayHash ⟨1, 3, [1, 2], 5⟩ := by
  exact ⟨rfl, rfl, by decide⟩

/-- C10.  Every concatenated input array built by `_InputConcatenator`
(serving as a binding of the new batched call or as a concatenated node
inside the new function body) and every output slice built by
`_OutputSlicer` carries the `ImplStored` tag, and its concatenation/slice
axis carries the marker tag — `ConcatenatedCallInputConcatAxisTag` resp.
`ConcatenatedCallOutputSliceAxisTag`, or `UseInputAxis` when
`inherit_axes` is set; arrays classified `ConcatableIfConstant` are passed
through unchanged. -/
theorem concatenation_rewrite_tagging (inheritAxes : Bool)
    (arrays : List TaggedArray) (a : TaggedArray) (arest : List TaggedArray)
    (harrays : arrays = a :: arest) (axis : Nat) (haxis : axis < a.ndim)
    (ary : TaggedArray) (haxis2 : axis < ary.ndim) (sliceSizes : List Nat)
    (templateBinding : TaggedArray) :
    (PtTag.implStoredTag ∈ (inputConcatenatorCall inheritAxes arrays axis).tags
     ∧ (if inheritAxes then PtTag.useInputAxisTag (some 0) axis
        else PtTag.concatInputConcatAxisTag)
         ∈ (inputConcatenatorCall inheritAxes arrays axis).axesTags.getD axis [])
    ∧ (∀ s ∈ outputSlicerCall inheritAxes ary axis sliceSizes,
        PtTag.implStoredTag ∈ s.tags
        ∧ (if inheritAxes then PtTag.useInputAxisTag none axis
           else PtTag.concatOutputSliceAxisTag)
            ∈ s.axesTags.getD axis [])
    ∧ newCallBinding inheritAxes .ifConstant templateBinding arrays
        = templateBinding
    ∧ functionConcatenatorOnConstant templateBinding = templateBinding := by
  subst harrays
  have haxes : ∀ (nd : Nat) (t : PtTag), axis < nd →
      ((List.replicate nd ([] : List PtTag)).set axis
        ((List.replicate nd ([] : List PtTag)).getD axis [] ++ [t])).getD axis []
        = [t] := by
    intro nd t hnd
    have hlen : axis < (List.replicate nd ([] : List PtTag)).length := by
      simpa using hnd
    rw [List.getD_eq_getElem _ [] (by simpa using hlen)]
    rw [List.getElem_set_self]
    · rw [List.getD_eq_getElem _ [] hlen]
      simp
  refine ⟨⟨?_, ?_⟩, ?_, ?_, rfl⟩
  · simp [inputConcatenatorCall, TaggedArray.taggedWith, TaggedArray.withTaggedAxis,
      concatenateT]
  · by_cases hinh : inheritAxes = true
    · subst hinh
      simp only [inputConcatenatorCall, TaggedArray.taggedWith,
        TaggedArray.withTaggedAxis, concatenateT, if_pos rfl]
      rw [haxes a.ndim _ haxis]
      simp
    · simp only [Bool.not_eq_true] at hinh
      subst hinh
      simp only [inputConcatenatorCall, TaggedArray.taggedWith,
        TaggedArray.withTaggedAxis, concatenateT, Bool.false_eq_true,
        if_neg (Bool.false_ne_true)]
      rw [haxes a.ndim _ haxis]
      simp
  · intro s hs
    simp only [outputSlicerCall, List.mem_map] at hs
    rcases hs with ⟨se, _, hse⟩
    subst hse
    constructor
    · simp [outputSlicerGetSlice, TaggedArray.taggedWith,
        TaggedArray.withTaggedAxis, basicIndexT]
    · by_cases hinh : inheritAxes = true
      · subst hinh
        simp only [outputSlicerGetSlice, TaggedArray.taggedWith,
          TaggedArray.withTaggedAxis, basicIndexT, if_pos rfl]
        rw [haxes ary.ndim _ haxis2]
        simp
      · simp only [Bool.not_eq_true] at hinh
        subst hinh
        simp only [outputSlicerGetSlice, TaggedArray.taggedWith,
          TaggedArray.withTaggedAxis, basicIndexT,
          if_neg (Bool.false_ne_true)]
        rw [haxes ary.ndim _ haxis2]
        simp
  · rfl

/-- Closed instantiation of `concatenation_rewrite_tagging` for two
2-dimensional arrays concatenated along axis 0, without axis
inheritance. -/
theorem concatenation_rewrite_tagging_witness :
    PtTag.implStoredTag ∈
      (inputConcatenatorCall false [⟨2, [], [[], []]⟩, ⟨2, [], [[], []]⟩] 0).tags
    ∧ PtTag.concatInputConcatAxisTag ∈
      (inputConcatenatorCall false
        [⟨2, [], [[], []]⟩, ⟨2, [], [[], []]⟩] 0).axesTags.getD 0 [] := by
  have h := concatenation_rewrite_tagging false
    [⟨2, [], [[], []]⟩, ⟨2, [], [[], []]⟩] ⟨2, [], [[], []]⟩ [⟨2, [], [[], []]⟩]
    rfl 0 (by decide) ⟨2, [], [[], []]⟩ (by decide) [1, 1] ⟨2, [], [[], []]⟩
  exact ⟨h.1.1, by simpa using h.1.2⟩

theorem bndListRec {motive : BndList → Prop} (hnil : motive .nil)
    (hcons : ∀ n e rest, motive rest → motive (.cons n e rest)) :
    ∀ bs, motive bs := by
  have key : ∀ (k : Nat) (bs : BndList), sizeOf bs ≤ k → motive bs := by
    intro k
    induction k with
    | zero =>
        intro bs hk
        cases bs with
        | nil => exact hnil
        | cons n e rest => simp at hk; try omega
    | succ k ih =>
        intro bs hk
        cases bs with
        | nil => exact hnil
        | cons n e rest =>
            refine hcons n e rest (ih rest ?_)
            simp at hk
            omega
  intro bs
  exact key (sizeOf bs) bs le_rfl

theorem find_inlineBnds :
    ∀ bs : BndList, ∀ n : String,
      BndList.find (inlineBnds bs) n = (BndList.find bs n).map inlineE := by
  refine bndListRec (motive := fun bs => ∀ n,
    BndList.find (inlineBnds bs) n = (BndList.find bs n).map inlineE) ?_ ?_
  · intro n
    simp [inlineBnds, BndList.find]
  · intro n₀ e rest ih n
    simp only [inlineBnds, BndList.find]
    by_cases h : n₀ = n
    · simp [h]
    · simp [h, ih n]

theorem inlineE_substB (body : BodyExpr) :
    ∀ bs : BndList, inlineE (substB body bs) = substB body (inlineBnds bs) := by
  induction body with
  | phold name s d =>
      intro bs
      simp only [substB]
      cases hf : BndList.find bs name with
      | some e =>
          rw [find_inlineBnds bs name, hf]
          rfl
      | none =>
          rw [find_inlineBnds bs name, hf]
          simp [inlineE]
  | leafB s d p =>
      intro bs
      simp [substB, inlineE]
  | opB s d a b iha ihb =>
      intro bs
      simp [substB, inlineE, iha, ihb]

/-- C4.  `inline_calls`: a `NamedCallResult` of a `Call` tagged
`InlineCallTag` is replaced by the named return's body in which every
`Placeholder` is substituted by the (recursively inlined) caller-side
binding of the same name — the value of the `DictOfNamedArrays` the
inliner builds for the call; a `Call` without the tag remains a `Call`
node (with recursively rewritten bindings); and the result of the
inliner contains no inline-tagged `Call` at all, so every reference
through a `NamedCallResult` of an inline-tagged call has become a direct
reference to the substituted body. -/
theorem inline_calls_semantics :
    (∀ rets bnds name,
        inlineE (.ncr true rets bnds name)
          = substB ((lookupRet rets name).getD (.leafB [] 0 0))
              (inlineBnds bnds))
    ∧ (∀ rets bnds name,
        inlineE (.ncr false rets bnds name)
          = .ncr false rets (inlineBnds bnds) name)
    ∧ (∀ e, noInlineTaggedCalls (inlineE e) = true) := by
  refine ⟨?_, ?_, ?_⟩
  · intro rets bnds name
    rw [show inlineE (.ncr true rets bnds name)
        = inlineE (substB ((lookupRet rets name).getD (.leafB [] 0 0)) bnds)
      from by simp [inlineE]]
    exact inlineE_substB _ bnds
  · intro rets bnds name
    simp [inlineE]
  · refine fun e => inlineE.induct
      (fun e => noInlineTaggedCalls (inlineE e) = true)
      (fun bs => noInlineTaggedCallsBnds (inlineBnds bs) = true)
      ?_ ?_ ?_ ?_ ?_ ?_ ?_ ?_ e
    · intro name s d
      simp [inlineE, noInlineTaggedCalls]
    · intro s d p
      simp [inlineE, noInlineTaggedCalls]
    · intro s d
      simp [inlineE, noInlineTaggedCalls]
    · intro s d a b iha ihb
      simp [inlineE, noInlineTaggedCalls, iha, ihb]
    · intro rets bnds name ih
      rw [show inlineE (.ncr true rets bnds name)
          = inlineE (substB ((lookupRet rets name).getD (.leafB [] 0 0)) bnds)
        from by simp [inlineE]]
      exact ih
    · intro rets bnds name ih
      simp [inlineE, noInlineTaggedCalls, ih]
    · simp [inlineBnds, noInlineTaggedCallsBnds]
    · intro name bnd rest ihb ihr
      simp [inlineBnds, noInlineTaggedCallsBnds, ihb, ihr]

/-- C5.  `zero_unused_call_bindings`: the rewrite first collects, for each
call, the placeholders reachable from the returns of that call that the
expression uses (`_collect_used_call_inputs`), then rewrites every call so
that a binding whose parameter is among those used inputs is kept
(recursively rewritten) while a binding whose parameter is not reachable
from any used return is replaced by `zeros(bnd.shape, bnd.dtype)`:
(i) the entry point wires the collector's result into the zeroer;
(ii) a call node is rewritten binding-wise, keyed by the call itself;
(iii) the binding of parameter `pn` becomes its recursive rewrite when
`pn` is a used input of the call and an all-zeros array of the binding's
shape and dtype otherwise;
(iv) `pn` is a used input of call `key` exactly when some return name of
`key` is consumed by the expression through a `NamedCallResult` and `pn`
is a placeholder reachable in that return's body. -/
theorem zero_unused_call_bindings_semantics :
    (∀ root, zeroUnusedCallBindings root
        = zeroUnusedE (fun key pn => decide (pn ∈ usedInputsOf root key)) root)
    ∧ (∀ (used : CallKey → String → Bool) inl rets bnds name,
        zeroUnusedE used (.ncr inl rets bnds name)
          = .ncr inl rets (zeroUnusedBnds used ⟨inl, rets, bnds⟩ bnds) name)
    ∧ (∀ (used : CallKey → String → Bool) (key : CallKey) (bs : BndList)
          (pn : String) (bnd : CallerExpr),
        BndList.find bs pn = some bnd →
        BndList.find (zeroUnusedBnds used key bs) pn
          = some (if used key pn then zeroUnusedE used bnd
                  else .zerosE bnd.shapeOf bnd.dtypeOf))
    ∧ (∀ (root : CallerExpr) (key : CallKey) (pn : String),
        pn ∈ usedInputsOf root key
          ↔ ∃ retName, (key, retName) ∈ collectUsedPairs root
              ∧ pn ∈ ((lookupRet key.rets retName).getD
                        (.leafB [] 0 0)).inputNames) := by
  refine ⟨?_, ?_, ?_, ?_⟩
  · intro root
    rfl
  · intro used inl rets bnds name
    simp [zeroUnusedE]
  · intro used key bs
    refine bndListRec (motive := fun bs => ∀ pn bnd,
      BndList.find bs pn = some bnd →
      BndList.find (zeroUnusedBnds used key bs) pn
        = some (if used key pn then zeroUnusedE used bnd
                else .zerosE bnd.shapeOf bnd.dtypeOf)) ?_ ?_ bs
    · intro pn bnd h
      simp [BndList.find] at h
    · intro n e rest ih pn bnd h
      simp only [BndList.find] at h
      simp only [zeroUnusedBnds, BndList.find]
      by_cases hn : n = pn
      · simp only [hn, if_pos rfl] at h ⊢
        rw [← Option.some_inj.1 h]
        simp
      · simp only [if_neg hn] at h ⊢
        exact ih pn bnd h
  · intro root key pn
    simp only [usedInputsOf, List.mem_flatMap, List.mem_filter,
      decide_eq_true_eq]
    constructor
    · rintro ⟨p, ⟨hmem, hkey⟩, hpn⟩
      refine ⟨p.2, ?_, hpn⟩
      have hp : (key, p.2) = p := by
        rw [← hkey]
      rw [hp]
      exact hmem
    · rintro ⟨retName, hmem, hpn⟩
      exact ⟨(key, retName), ⟨hmem, rfl⟩, hpn⟩

/-- Closed instantiation of `zero_unused_call_bindings_semantics`: a
binding for an unused parameter `y` of shape `[3]`, dtype 5 is replaced
by `zeros([3], 5)`. -/
theorem zero_unused_call_bindings_witness :
    BndList.find
      (zeroUnusedBnds (fun _ pn => pn == "x") ⟨false, [], .nil⟩
        (.cons "y" (.leafE [3] 5 1) .nil)) "y"
      = some (.zerosE [3] 5) := by
  have h := zero_unused_call_bindings_semantics.2.2.1
    (fun _ pn => pn == "x") ⟨false, [], .nil⟩
    (.cons "y" (.leafE [3] 5 1) .nil) "y" (.leafE [3] 5 1) (by decide)
  rw [h]
  decide

theorem ConcatMap.find_append_some {m : ConcatMap} (l : ConcatMap)
    {k : String} {c : Concatenatability} (h : ConcatMap.find m k = some c) :
    ConcatMap.find (m ++ l) k = some c := by
  induction m with
  | nil => simp [ConcatMap.find] at h
  | cons p rest ih =>
      rcases p with ⟨k₀, c₀⟩
      simp only [ConcatMap.find] at h
      by_cases hk : k₀ = k
      · simp only [List.cons_append, ConcatMap.find, if_pos hk]
        simpa [hk] using h
      · simp only [List.cons_append, ConcatMap.find, if_neg hk]
        exact ih (by simpa [hk] using h)

theorem ConcatMap.find_append_none {m : ConcatMap} (l : ConcatMap)
    {k : String} (h : ConcatMap.find m k = none) :
    ConcatMap.find (m ++ l) k = ConcatMap.find l k := by
  induction m with
  | nil => simp [ConcatMap.find]
  | cons p rest ih =>
      rcases p with ⟨k₀, c₀⟩
      simp only [ConcatMap.find] at h
      by_cases hk : k₀ = k
      · simp [hk] at h
      · simp only [List.cons_append, ConcatMap.find, if_neg hk]
        exact ih (by simpa [hk] using h)

theorem ConcatMap.find_some_ne_nil {m : ConcatMap} {k : String}
    {c : Concatenatability} (h : ConcatMap.find m k = some c) : m ≠ [] := by
  intro hm
  subst hm
  simp [ConcatMap.find] at h

theorem combineInsert_find_self {m : ConcatMap} {k : String}
    {c : Concatenatability} {m' : ConcatMap}
    (h : combineInsert m k c = .ok m') : ConcatMap.find m' k = some c := by
  unfold combineInsert at h
  cases hf : ConcatMap.find m k with
  | some c₀ =>
      simp only [hf] at h
      by_cases hc : c₀ = c
      · rw [if_pos hc] at h
        cases h
        rw [hf, hc]
      · rw [if_neg hc] at h
        cases h
  | none =>
      simp only [hf] at h
      cases h
      rw [ConcatMap.find_append_none _ hf]
      simp [ConcatMap.find]

theorem combineInsert_find_mono {m : ConcatMap} {k : String}
    {c : Concatenatability} {m' : ConcatMap}
    (h : combineInsert m k c = .ok m') :
    ∀ k₀ c₀, ConcatMap.find m k₀ = some c₀ → ConcatMap.find m' k₀ = some c₀ := by
  intro k₀ c₀ h₀
  unfold combineInsert at h
  cases hf : ConcatMap.find m k with
  | some c₁ =>
      simp only [hf] at h
      by_cases hc : c₁ = c
      · rw [if_pos hc] at h
        cases h
        exact h₀
      · rw [if_neg hc] at h
        cases h
  | none =>
      simp only [hf] at h
      cases h
      exact ConcatMap.find_append_some _ h₀

theorem combineInsert_entries {m : ConcatMap} {k : String}
    {c : Concatenatability} {m' : ConcatMap}
    (h : combineInsert m k c = .ok m') :
    ∀ p ∈ m', p ∈ m ∨ p = (k, c) := by
  intro p hp
  unfold combineInsert at h
  cases hf : ConcatMap.find m k with
  | some c₁ =>
      simp only [hf] at h
      by_cases hc : c₁ = c
      · rw [if_pos hc] at h
        cases h
        exact Or.inl hp
      · rw [if_neg hc] at h
        cases h
  | none =>
      simp only [hf] at h
      cases h
      rcases List.mem_append.1 hp with hp | hp
      · exact Or.inl hp
      · simp at hp
        exact Or.inr hp

theorem combineOne_find_mono (v : ConcatMap) :
    ∀ (acc acc' : ConcatMap), combineOne acc v = .ok acc' →
      ∀ k c, ConcatMap.find acc k = some c → ConcatMap.find acc' k = some c := by
  induction v with
  | nil =>
      intro acc acc' h k c h₀
      simp only [combineOne] at h
      cases h
      exact h₀
  | cons p rest ih =>
      rcases p with ⟨k₁, c₁⟩
      intro acc acc' h k c h₀
      simp only [combineOne] at h
      cases hins : combineInsert acc k₁ c₁ with
      | error e => simp only [hins] at h; cases h
      | ok acc₁ =>
          simp only [hins] at h
          exact ih acc₁ acc' h k c (combineInsert_find_mono hins k c h₀)

theorem combineOne_find_of_mem (v : ConcatMap) :
    ∀ (acc acc' : ConcatMap), combineOne acc v = .ok acc' →
      ∀ k c, (k, c) ∈ v → ConcatMap.find acc' k = some c := by
  induction v with
  | nil =>
      intro acc acc' h k c hm
      simp at hm
  | cons p rest ih =>
      rcases p with ⟨k₁, c₁⟩
      intro acc acc' h k c hm
      simp only [combineOne] at h
      cases hins : combineInsert acc k₁ c₁ with
      | error e => simp only [hins] at h; cases h
      | ok acc₁ =>
          simp only [hins] at h
          rcases List.mem_cons.1 hm with hm | hm
          · rw [Prod.mk.injEq] at hm
            refine combineOne_find_mono rest acc₁ acc' h k c ?_
            rw [hm.1, hm.2]
            exact combineInsert_find_self hins
          · exact ih acc₁ acc' h k c hm

theorem combineOne_entries (v : ConcatMap) :
    ∀ (acc acc' : ConcatMap), combineOne acc v = .ok acc' →
      ∀ p ∈ acc', p ∈ acc ∨ p ∈ v := by
  induction v with
  | nil =>
      intro acc acc' h p hp
      simp only [combineOne] at h
      cases h
      exact Or.inl hp
  | cons q rest ih =>
      rcases q with ⟨k₁, c₁⟩
      intro acc acc' h p hp
      simp only [combineOne] at h
      cases hins : combineInsert acc k₁ c₁ with
      | error e => simp only [hins] at h; cases h
      | ok acc₁ =>
          simp only [hins] at h
          rcases ih acc₁ acc' h p hp with hp' | hp'
          · rcases combineInsert_entries hins p hp' with hp'' | hp''
            · exact Or.inl hp''
            · exact Or.inr (by simp [hp''])
          · exact Or.inr (List.mem_cons_of_mem _ hp')

theorem combineAll_find_mono (vs : List ConcatMap) :
    ∀ (acc acc' : ConcatMap), combineAll acc vs = .ok acc' →
      ∀ k c, ConcatMap.find acc k = some c → ConcatMap.find acc' k = some c := by
  induction vs with
  | nil =>
      intro acc acc' h k c h₀
      simp only [combineAll] at h
      cases h
      exact h₀
  | cons v rest ih =>
      intro acc acc' h k c h₀
      simp only [combineAll] at h
      cases hone : combineOne acc v with
      | error e => simp only [hone] at h; cases h
      | ok acc₁ =>
          simp only [hone] at h
          exact ih acc₁ acc' h k c (combineOne_find_mono v acc acc₁ hone k c h₀)

theorem combineAll_find_of_mem (vs : List ConcatMap) :
    ∀ (acc acc' : ConcatMap), combineAll acc vs = .ok acc' →
      ∀ v, v ∈ vs → ∀ k c, (k, c) ∈ v → ConcatMap.find acc' k = some c := by
  induction vs with
  | nil =>
      intro acc acc' h v hv
      simp at hv
  | cons v₀ rest ih =>
      intro acc acc' h v hv k c hm
      simp only [combineAll] at h
      cases hone : combineOne acc v₀ with
      | error e => simp only [hone] at h; cases h
      | ok acc₁ =>
          simp only [hone] at h
          rcases List.mem_cons.1 hv with hv' | hv'
          · subst hv'
            exact combineAll_find_mono rest acc₁ acc' h k c
              (combineOne_find_of_mem v acc acc₁ hone k c hm)
          · exact ih acc₁ acc' h v hv' k c hm

theorem combineAll_entries (vs : List ConcatMap) :
    ∀ (acc acc' : ConcatMap), combineAll acc vs = .ok acc' →
      ∀ p ∈ acc', p ∈ acc ∨ ∃ v ∈ vs, p ∈ v := by
  induction vs with
  | nil =>
      intro acc acc' h p hp
      simp only [combineAll] at h
      cases h
      exact Or.inl hp
  | cons v₀ rest ih =>
      intro acc acc' h p hp
      simp only [combineAll] at h
      cases hone : combineOne acc v₀ with
      | error e => simp only [hone] at h; cases h
      | ok acc₁ =>
          simp only [hone] at h
          rcases ih acc₁ acc' h p hp with hp' | ⟨v, hv, hp'⟩
          · rcases combineOne_entries v₀ acc acc₁ hone p hp' with hp'' | hp''
            · exact Or.inl hp''
            · exact Or.inr ⟨v₀, by simp, hp''⟩
          · exact Or.inr ⟨v, List.mem_cons_of_mem _ hv, hp'⟩

theorem scalarIdxRec {P : ScalarExpr → Prop} {Q : IdxList → Prop}
    (hconst : ∀ v, P (.const v))
    (hvar : ∀ n, P (.var n))
    (hop : ∀ a b, P a → P b → P (.operation a b))
    (hsub : ∀ agg idxs, Q idxs → P (.subscript agg idxs))
    (hnil : Q .nil)
    (hcons : ∀ e rest, P e → Q rest → Q (.cons e rest)) :
    (∀ e, P e) ∧ (∀ idxs, Q idxs) := by
  have key : ∀ k : Nat,
      (∀ e : ScalarExpr, sizeOf e ≤ k → P e)
      ∧ (∀ idxs : IdxList, sizeOf idxs ≤ k → Q idxs) := by
    intro k
    induction k with
    | zero =>
        constructor
        · intro e hk
          cases e <;> (exfalso; simp at hk; try omega)
        · intro idxs hk
          cases idxs <;> (first | exact hnil | (exfalso; simp at hk; try omega))
    | succ k ih =>
        constructor
        · intro e hk
          cases e with
          | const v => exact hconst v
          | var n => exact hvar n
          | operation a b =>
              refine hop a b (ih.1 a ?_) (ih.1 b ?_) <;> (simp at hk; omega)
          | subscript agg idxs =>
              refine hsub agg idxs (ih.2 idxs ?_)
              simp at hk; omega
        · intro idxs hk
          cases idxs with
          | nil => exact hnil
          | cons e rest =>
              refine hcons e rest (ih.1 e ?_) (ih.2 rest ?_) <;>
                (simp at hk; omega)
  exact ⟨fun e => (key (sizeOf e)).1 e le_rfl,
         fun idxs => (key (sizeOf idxs)).2 idxs le_rfl⟩

theorem loose_occurrence_not_concatenatable (iaxis : Nat) :
    (∀ e, looseOccur iaxis e = true →
      ∀ allow, mapScalarConcat iaxis allow e = .error ())
    ∧ (∀ idxs, looseOccurIdx iaxis idxs = true →
      ∀ allow agg pos,
        mapSubscriptIndices iaxis allow agg pos idxs = .error ()) := by
  refine scalarIdxRec ?_ ?_ ?_ ?_ ?_ ?_
  · intro v h
    simp [looseOccur] at h
  · intro n h allow
    simp only [looseOccur, beq_iff_eq] at h
    simp [mapScalarConcat, h]
  · intro a b iha ihb h allow
    simp only [looseOccur, Bool.or_eq_true] at h
    simp only [mapScalarConcat]
    rcases h with h | h
    · rw [iha h allow]
    · cases hra : mapScalarConcat iaxis allow a with
      | error e => rfl
      | ok ra => rw [ihb h allow]
  · intro agg idxs ih h allow
    simp only [looseOccur] at h
    simp only [mapScalarConcat]
    rw [ih h allow agg 0]
  · intro h
    simp [looseOccurIdx] at h
  · intro e rest ihe ihr h allow agg pos
    simp only [looseOccurIdx, Bool.or_eq_true, Bool.and_eq_true,
      decide_eq_true_eq] at h
    simp only [mapSubscriptIndices]
    by_cases hvar : e = .var (iaxisName iaxis)
    · rw [if_pos hvar]
      have hrest : looseOccurIdx iaxis rest = true := by
        rcases h with ⟨hne, _⟩ | h
        · exact absurd hvar hne
        · exact h
      rw [ihr hrest allow agg (pos + 1)]
    · rw [if_neg hvar]
      rcases h with ⟨_, hloose⟩ | hrest
      · rw [ihe hloose allow]
      · cases hre : mapScalarConcat iaxis allow e with
        | error u => rfl
        | ok re =>
            simp only [hre, ihr hrest allow agg (pos + 1)]
            split
            · rfl
            · rfl

theorem no_occurrence_all_ifConstant (iaxis : Nat) (allow : Bool) :
    (∀ e, occursVar (iaxisName iaxis) e = false →
      ∀ m, mapScalarConcat iaxis allow e = .ok m →
        ∀ p ∈ m, p.2 = Concatenatability.ifConstant)
    ∧ (∀ idxs, occursVarIdx (iaxisName iaxis) idxs = false →
      ∀ agg pos ms, mapSubscriptIndices iaxis allow agg pos idxs = .ok ms →
        ∀ v ∈ ms, ∀ p ∈ v, p.2 = Concatenatability.ifConstant) := by
  refine scalarIdxRec ?_ ?_ ?_ ?_ ?_ ?_
  · intro v _ m hm p hp
    simp only [mapScalarConcat] at hm
    cases hm
    simp at hp
  · intro n _ m hm p hp
    simp only [mapScalarConcat] at hm
    by_cases hn : n = iaxisName iaxis
    · rw [if_pos hn] at hm
      cases hm
    · rw [if_neg hn] at hm
      cases hm
      simp at hp
  · intro a b iha ihb hocc m hm p hp
    simp only [occursVar, Bool.or_eq_false_iff] at hocc
    simp only [mapScalarConcat] at hm
    cases hra : mapScalarConcat iaxis allow a with
    | error u => simp only [hra] at hm; cases hm
    | ok ra =>
        simp only [hra] at hm
        cases hrb : mapScalarConcat iaxis allow b with
        | error u => simp only [hrb] at hm; cases hm
        | ok rb =>
            simp only [hrb] at hm
            rcases combineAll_entries [ra, rb] [] m hm p hp with hp' | ⟨v, hv, hp'⟩
            · simp at hp'
            · rcases List.mem_cons.1 hv with hv' | hv'
              · rw [hv'] at hp'
                exact iha hocc.1 ra hra p hp'
              · simp only [List.mem_singleton] at hv'
                rw [hv'] at hp'
                exact ihb hocc.2 rb hrb p hp'
  · intro agg idxs ih hocc m hm p hp
    simp only [occursVar] at hocc
    simp only [mapScalarConcat] at hm
    cases hms : mapSubscriptIndices iaxis allow agg 0 idxs with
    | error u => simp only [hms] at hm; cases hm
    | ok ms =>
        simp only [hms] at hm
        cases hcomb : combineAll [] ms with
        | error u => simp only [hcomb] at hm; cases hm
        | ok combined =>
            simp only [hcomb] at hm
            have hcombined : ∀ p ∈ combined, p.2 = Concatenatability.ifConstant := by
              intro q hq
              rcases combineAll_entries ms [] combined hcomb q hq with hq' | ⟨v, hv, hq'⟩
              · simp at hq'
              · exact ih hocc agg 0 ms hms v hv q hq'
            cases hfind : ConcatMap.find combined agg with
            | some c =>
                simp only [hfind] at hm
                cases hm
                exact hcombined p hp
            | none =>
                simp only [hfind] at hm
                cases hm
                rcases List.mem_append.1 hp with hp' | hp'
                · exact hcombined p hp'
                · simp at hp'
                  rw [hp']
  · intro _ agg pos ms hms v hv
    simp only [mapSubscriptIndices] at hms
    cases hms
    simp at hv
  · intro e rest ihe ihr hocc agg pos ms hms v hv p hp
    simp only [occursVarIdx, Bool.or_eq_false_iff] at hocc
    have hvar : ¬ e = .var (iaxisName iaxis) := by
      intro he
      subst he
      simp [occursVar] at hocc
    simp only [mapSubscriptIndices, if_neg hvar] at hms
    cases hre : mapScalarConcat iaxis allow e with
    | error u => simp only [hre] at hms; cases hms
    | ok re =>
        simp only [hre] at hms
        by_cases hcond : re ≠ ([] : ConcatMap) ∧ ¬ allow
        · rw [if_pos hcond] at hms
          cases hms
        · rw [if_neg hcond] at hms
          cases hrest : mapSubscriptIndices iaxis allow agg (pos + 1) rest with
          | error u => simp only [hrest] at hms; cases hms
          | ok recRest =>
              simp only [hrest] at hms
              cases hms
              rcases List.mem_cons.1 hv with hv' | hv'
              · rw [hv'] at hp
                exact ihe hocc.1 re hre p hp
              · exact ihr hocc.2 agg (pos + 1) recRest hrest v hv' p hp

theorem mapScalarConcat_subscript_find_agg (iaxis : Nat) (allow : Bool)
    (agg : String) (idxs : IdxList) (m : ConcatMap)
    (hm : mapScalarConcat iaxis allow (.subscript agg idxs) = .ok m) :
    ∃ c, ConcatMap.find m agg = some c := by
  simp only [mapScalarConcat] at hm
  cases hms : mapSubscriptIndices iaxis allow agg 0 idxs with
  | error u => simp only [hms] at hm; cases hm
  | ok ms =>
      simp only [hms] at hm
      cases hcomb : combineAll [] ms with
      | error u => simp only [hcomb] at hm; cases hm
      | ok combined =>
          simp only [hcomb] at hm
          cases hfind : ConcatMap.find combined agg with
          | some c =>
              simp only [hfind] at hm
              cases hm
              exact ⟨c, hfind⟩
          | none =>
              simp only [hfind] at hm
              cases hm
              refine ⟨.ifConstant, ?_⟩
              rw [ConcatMap.find_append_none _ hfind]
              simp [ConcatMap.find]

theorem occurrence_ok_nonempty (iaxis : Nat) (allow : Bool) :
    (∀ e, occursVar (iaxisName iaxis) e = true →
      ∀ m, mapScalarConcat iaxis allow e = .ok m → m ≠ [])
    ∧ (∀ _idxs : IdxList, True) := by
  refine scalarIdxRec ?_ ?_ ?_ ?_ trivial (fun _ _ _ _ => trivial)
  · intro v h
    simp [occursVar] at h
  · intro n h m hm
    simp only [occursVar, beq_iff_eq] at h
    simp only [mapScalarConcat, if_pos h] at hm
    cases hm
  · intro a b iha ihb h m hm
    simp only [occursVar, Bool.or_eq_true] at h
    simp only [mapScalarConcat] at hm
    cases hra : mapScalarConcat iaxis allow a with
    | error u => simp only [hra] at hm; cases hm
    | ok ra =>
        simp only [hra] at hm
        cases hrb : mapScalarConcat iaxis allow b with
        | error u => simp only [hrb] at hm; cases hm
        | ok rb =>
            simp only [hrb] at hm
            rcases h with h | h
            · have hne := iha h ra hra
              cases hra2 : ra with
              | nil => exact absurd hra2 hne
              | cons p rest =>
                  rcases p with ⟨k, c⟩
                  have hfound := combineAll_find_of_mem [ra, rb] [] m hm
                    ra (by simp) k c (by rw [hra2]; exact List.mem_cons_self _ _)
                  exact ConcatMap.find_some_ne_nil hfound
            · have hne := ihb h rb hrb
              cases hrb2 : rb with
              | nil => exact absurd hrb2 hne
              | cons p rest =>
                  rcases p with ⟨k, c⟩
                  have hfound := combineAll_find_of_mem [ra, rb] [] m hm
                    rb (by simp) k c (by rw [hrb2]; exact List.mem_cons_self _ _)
                  exact ConcatMap.find_some_ne_nil hfound
  · intro agg idxs _ h m hm
    rcases mapScalarConcat_subscript_find_agg iaxis allow agg idxs m hm with ⟨c, hc⟩
    exact ConcatMap.find_some_ne_nil hc

theorem ConcatMap.find_mem {m : ConcatMap} {k : String}
    {c : Concatenatability} (h : ConcatMap.find m k = some c) : (k, c) ∈ m := by
  induction m with
  | nil => simp [ConcatMap.find] at h
  | cons p rest ih =>
      rcases p with ⟨k₀, c₀⟩
      simp only [ConcatMap.find] at h
      by_cases hk : k₀ = k
      · rw [if_pos hk] at h
        cases h
        simp [hk]
      · rw [if_neg hk] at h
        exact List.mem_cons_of_mem _ (ih h)

theorem mapSubscriptIndices_at_var (iaxis : Nat) (allow : Bool)
    (agg : String) :
    ∀ idxs : IdxList, ∀ pos j ms,
      mapSubscriptIndices iaxis allow agg pos idxs = .ok ms →
      IdxList.at? idxs j = some (.var (iaxisName iaxis)) →
      [(agg, Concatenatability.alongAxis (pos + j))] ∈ ms := by
  refine (@scalarIdxRec (fun _ => True)
    (fun idxs => ∀ pos j ms,
      mapSubscriptIndices iaxis allow agg pos idxs = .ok ms →
      IdxList.at? idxs j = some (.var (iaxisName iaxis)) →
      [(agg, Concatenatability.alongAxis (pos + j))] ∈ ms)
    (fun _ => trivial) (fun _ => trivial) (fun _ _ _ _ => trivial)
    (fun _ _ _ => trivial) ?_ ?_).2
  · intro pos j ms _ hat
    simp [IdxList.at?] at hat
  · intro e rest _ ihr pos j ms hms hat
    by_cases hvar : e = .var (iaxisName iaxis)
    · simp only [mapSubscriptIndices, if_pos hvar] at hms
      cases hrest : mapSubscriptIndices iaxis allow agg (pos + 1) rest with
      | error u => simp only [hrest] at hms; cases hms
      | ok recRest =>
          simp only [hrest] at hms
          cases hms
          cases j with
          | zero => simp
          | succ j =>
              simp only [IdxList.at?] at hat
              have hmem := ihr (pos + 1) j recRest hrest hat
              have harith : pos + (j + 1) = pos + 1 + j := by omega
              rw [harith]
              exact List.mem_cons_of_mem _ hmem
    · cases j with
      | zero =>
          simp only [IdxList.at?] at hat
          cases hat
          exact absurd rfl hvar
      | succ j =>
          simp only [IdxList.at?] at hat
          simp only [mapSubscriptIndices, if_neg hvar] at hms
          cases hre : mapScalarConcat iaxis allow e with
          | error u => simp only [hre] at hms; cases hms
          | ok re =>
              simp only [hre] at hms
              by_cases hcond : re ≠ ([] : ConcatMap) ∧ ¬ allow
              · rw [if_pos hcond] at hms
                cases hms
              · rw [if_neg hcond] at hms
                cases hrest : mapSubscriptIndices iaxis allow agg (pos + 1)
                    rest with
                | error u => simp only [hrest] at hms; cases hms
                | ok recRest =>
                    simp only [hrest] at hms
                    cases hms
                    have hmem := ihr (pos + 1) j recRest hrest hat
                    have harith : pos + (j + 1) = pos + 1 + j := by omega
                    rw [harith]
                    exact List.mem_cons_of_mem _ hmem

theorem subscript_axis_position (iaxis : Nat) (allow : Bool) (agg : String)
    (idxs : IdxList) (j : Nat) (m : ConcatMap)
    (hm : mapScalarConcat iaxis allow (.subscript agg idxs) = .ok m)
    (hat : IdxList.at? idxs j = some (.var (iaxisName iaxis))) :
    ConcatMap.find m agg = some (.alongAxis j) := by
  simp only [mapScalarConcat] at hm
  cases hms : mapSubscriptIndices iaxis allow agg 0 idxs with
  | error u => simp only [hms] at hm; cases hm
  | ok ms =>
      simp only [hms] at hm
      cases hcomb : combineAll [] ms with
      | error u => simp only [hcomb] at hm; cases hm
      | ok combined =>
          simp only [hcomb] at hm
          have hmem := mapSubscriptIndices_at_var iaxis allow agg idxs 0 j ms
            hms hat
          rw [Nat.zero_add] at hmem
          have hfind := combineAll_find_of_mem ms [] combined hcomb
            [(agg, Concatenatability.alongAxis j)] hmem agg
            (Concatenatability.alongAxis j) (by simp)
          cases hfindagg : ConcatMap.find combined agg with
          | some c =>
              simp only [hfindagg] at hm
              cases hm
              exact hfind
          | none => rw [hfindagg] at hfind; cases hfind

theorem mapSubscriptIndices_indirect_error (iaxis : Nat) (agg : String) :
    ∀ idxs : IdxList, ∀ pos idx,
      IdxList.mem idx idxs → idx ≠ .var (iaxisName iaxis) →
      occursVar (iaxisName iaxis) idx = true →
      mapSubscriptIndices iaxis false agg pos idxs = .error () := by
  refine (@scalarIdxRec (fun _ => True)
    (fun idxs => ∀ pos idx,
      IdxList.mem idx idxs → idx ≠ .var (iaxisName iaxis) →
      occursVar (iaxisName iaxis) idx = true →
      mapSubscriptIndices iaxis false agg pos idxs = .error ())
    (fun _ => trivial) (fun _ => trivial) (fun _ _ _ _ => trivial)
    (fun _ _ _ => trivial) ?_ ?_).2
  · intro pos idx hmem
    exact absurd hmem id
  · intro e rest _ ihr pos idx hmem hne hocc
    rcases hmem with hmem | hmem
    · subst hmem
      cases hre : mapScalarConcat iaxis false idx with
      | error u => simp only [mapSubscriptIndices, if_neg hne, hre]
      | ok re =>
          have hrne := (occurrence_ok_nonempty iaxis false).1 idx hocc re hre
          simp only [mapSubscriptIndices, if_neg hne, hre]
          simp [hrne]
    · by_cases hvar : e = .var (iaxisName iaxis)
      · simp only [mapSubscriptIndices, if_pos hvar,
          ihr (pos + 1) idx hmem hne hocc]
      · simp only [mapSubscriptIndices, if_neg hvar]
        cases hre : mapScalarConcat iaxis false e with
        | error u => rfl
        | ok re =>
            simp only [hre, ihr (pos + 1) idx hmem hne hocc]
            split
            · rfl
            · rfl

/-- C2.  The per-axis concatenability analysis of an `IndexLambda`'s
scalar expression (`_ScalarExprConcatabilityMapper`, output axis `a`,
writing `_a` for `f"_{a}"`):
(1) a *loose* occurrence of `_a` — one that is not itself a whole index
entry of a subscript, in particular the bare variable — makes the
expression not concatenatable along `a` (`NonConcatableExpression`);
(2) for a subscript `operand[i_0, …]`, an index position `i_j = _a`
constrains `operand` to `ConcatableAlongAxis(j)`;
(3) two distinct positions both equal to `_a` are conflicting
requirements on the same binding, so the node is not concatenatable;
(4) a subscript whose indices do not involve `_a` constrains `operand` to
`ConcatableIfConstant`;
(5) `_a` occurring inside a nontrivial index expression (one that is not
literally the variable `_a`) is rejected when indirect addressing is not
allowed. -/
theorem scalar_expr_concatability (iaxis : Nat) (allow : Bool) :
    (∀ e, looseOccur iaxis e = true →
        mapScalarConcat iaxis allow e = .error ())
    ∧ (∀ agg idxs j m,
        mapScalarConcat iaxis allow (.subscript agg idxs) = .ok m →
        IdxList.at? idxs j = some (.var (iaxisName iaxis)) →
        ConcatMap.find m agg = some (.alongAxis j))
    ∧ (∀ agg idxs j₁ j₂, j₁ ≠ j₂ →
        IdxList.at? idxs j₁ = some (.var (iaxisName iaxis)) →
        IdxList.at? idxs j₂ = some (.var (iaxisName iaxis)) →
        mapScalarConcat iaxis allow (.subscript agg idxs) = .error ())
    ∧ (∀ agg idxs m, occursVarIdx (iaxisName iaxis) idxs = false →
        mapScalarConcat iaxis allow (.subscript agg idxs) = .ok m →
        ConcatMap.find m agg = some .ifConstant)
    ∧ (∀ agg idxs idx, IdxList.mem idx idxs →
        idx ≠ .var (iaxisName iaxis) →
        occursVar (iaxisName iaxis) idx = true →
        mapScalarConcat iaxis false (.subscript agg idxs) = .error ()) := by
  refine ⟨?_, ?_, ?_, ?_, ?_⟩
  · intro e h
    exact (loose_occurrence_not_concatenatable iaxis).1 e h allow
  · intro agg idxs j m hm hat
    exact subscript_axis_position iaxis allow agg idxs j m hm hat
  · intro agg idxs j₁ j₂ hne h1 h2
    cases hm : mapScalarConcat iaxis allow (.subscript agg idxs) with
    | error u => cases u; rfl
    | ok m =>
        exfalso
        have f1 := subscript_axis_position iaxis allow agg idxs j₁ m hm h1
        have f2 := subscript_axis_position iaxis allow agg idxs j₂ m hm h2
        rw [f1] at f2
        have : Concatenatability.alongAxis j₁ = Concatenatability.alongAxis j₂ :=
          Option.some_inj.1 f2
        cases this
        exact hne rfl
  · intro agg idxs m hocc hm
    obtain ⟨c, hc⟩ := mapScalarConcat_subscript_find_agg iaxis allow agg idxs
      m hm
    have hcic := (no_occurrence_all_ifConstant iaxis allow).1
      (.subscript agg idxs) (by simp [occursVar, hocc]) m hm (agg, c)
      (ConcatMap.find_mem hc)
    rw [hc]
    have hceq : c = Concatenatability.ifConstant := hcic
    rw [hceq]
  · intro agg idxs idx hmem hne hocc
    simp only [mapScalarConcat,
      mapSubscriptIndices_indirect_error iaxis agg idxs 0 idx hmem hne hocc]

/-- Closed instantiation of `scalar_expr_concatability` for output axis 0:
a bare `_0` is rejected; `x[_0]` pins `x` to `ConcatableAlongAxis(0)`;
`x[_0, _0]` conflicts; `x[_1]` yields `ConcatableIfConstant`;
and `x[_0 + 1]` is rejected without indirect addressing. -/
theorem scalar_expr_concatability_witness :
    mapScalarConcat 0 false (.var (iaxisName 0)) = .error ()
    ∧ ConcatMap.find [("x", Concatenatability.alongAxis 0)] "x"
        = some (.alongAxis 0)
    ∧ mapScalarConcat 0 false
        (.subscript "x" (.cons (.var (iaxisName 0))
          (.cons (.var (iaxisName 0)) .nil))) = .error ()
    ∧ ConcatMap.find [("x", Concatenatability.ifConstant)] "x"
        = some .ifConstant
    ∧ mapScalarConcat 0 false
        (.subscript "x" (.cons (.operation (.var (iaxisName 0)) (.const 1))
          .nil)) = .error () := by
  have h := scalar_expr_concatability 0 false
  refine ⟨?_, ?_, ?_, ?_, ?_⟩
  · exact h.1 (.var (iaxisName 0)) (by decide)
  · exact h.2.1 "x" (.cons (.var (iaxisName 0)) .nil) 0
      [("x", Concatenatability.alongAxis 0)] rfl (by decide)
  · exact h.2.2.1 "x" (.cons (.var (iaxisName 0))
      (.cons (.var (iaxisName 0)) .nil)) 0 1 (by decide) (by decide) (by decide)
  · exact h.2.2.2.1 "x" (.cons (.var (iaxisName 1)) .nil)
      [("x", Concatenatability.ifConstant)] (by decide) rfl
  · exact h.2.2.2.2 "x" (.cons (.operation (.var (iaxisName 0)) (.const 1))
      .nil) (.operation (.var (iaxisName 0)) (.const 1)) (Or.inl rfl)
      (by decide) (by decide)

end Pytato
